import Mathlib

/-!
Verification of the RC5/RC6 wide-block cipher engine (rc6.c).

Words of the C code are modelled as natural numbers below 2 ^ wsz, with
every word-typed arithmetic operation reduced modulo 2 ^ wsz exactly where
the WORD type of the C code truncates.  The compile-time configuration
(WORD_SZ, LGW, P, Q) is a record; the five configurations of the source
are given as concrete constants.  The expanded key table lives in caller
memory, modelled as a function from indices to words; setup returns the
return code together with the final contents of that memory.
-/

namespace RC6

/-- Compile-time configuration of the engine: word size in bits (WORD_SZ),
the rotation constant LGW, and the magic constants P and Q of the key
schedule. -/
structure Cfg where
  wsz : Nat
  lgw : Nat
  P : Nat
  Q : Nat

/-- Modulus of word arithmetic: 2 ^ WORD_SZ. -/
def Cfg.M (cfg : Cfg) : Nat := 2 ^ cfg.wsz

/-- Configuration selected by WORD_SZ == 8 in rc6.c. -/
def params8 : Cfg := ⟨8, 3, 0xb7, 0x9f⟩

/-- Configuration selected by WORD_SZ == 16 in rc6.c. -/
def params16 : Cfg := ⟨16, 4, 0xb7e1, 0x9e37⟩

/-- Configuration selected by WORD_SZ == 32 in rc6.c. -/
def params32 : Cfg := ⟨32, 5, 0xb7e15163, 0x9e3779b9⟩

/-- Configuration selected by WORD_SZ == 64 in rc6.c (the committed default). -/
def params64 : Cfg := ⟨64, 6, 0xb7e151628aed2a6b, 0x9e3779b97f4a7c15⟩

/-- Configuration selected by WORD_SZ == 128 in rc6.c. -/
def params128 : Cfg :=
  ⟨128, 7, 0xb7e151628aed2a6abf7158809cf4f3c7, 0x9e3779b97f4a7c15f39cc0605cedc835⟩

/-- rotl of rc6.c: (x shl d) or (x shr (WORD_SZ - d)), truncated to a word. -/
def rotl (cfg : Cfg) (x d : Nat) : Nat :=
  ((x <<< d) ||| (x >>> (cfg.wsz - d))) % cfg.M

/-- rotr of rc6.c: (x shr d) or (x shl (WORD_SZ - d)), truncated to a word. -/
def rotr (cfg : Cfg) (x d : Nat) : Nat :=
  ((x >>> d) ||| (x <<< (cfg.wsz - d))) % cfg.M

/-- Word addition, wrapping modulo 2 ^ WORD_SZ. -/
def wadd (cfg : Cfg) (a b : Nat) : Nat := (a + b) % cfg.M

/-- Word subtraction, wrapping modulo 2 ^ WORD_SZ. -/
def wsub (cfg : Cfg) (a b : Nat) : Nat := (a + (cfg.M - b % cfg.M)) % cfg.M

/-- Word exclusive or. -/
def wxor (a b : Nat) : Nat := a ^^^ b

/-- Bytes per word: sizeof(WORD). -/
def wordBytes (cfg : Cfg) : Nat := cfg.wsz / 8

/-- Value of a list of bytes read as a little-endian number, each list entry
truncated to a byte. -/
def wordOfBytesLE : List Nat → Nat
  | [] => 0
  | a :: l => a % 256 + 256 * wordOfBytesLE l

/-- The n low-order bytes of a number, least significant first. -/
def bytesOfWordLE : Nat → Nat → List Nat
  | 0, _ => []
  | n + 1, x => x % 256 :: bytesOfWordLE n (x / 256)

/-- Byte-reversal of a word, as computed by the width-specific bswap of
rc6.c. -/
def bswap (cfg : Cfg) (x : Nat) : Nat :=
  wordOfBytesLE (bytesOfWordLE (wordBytes cfg) x).reverse

/-- bswap_if_be of rc6.c: on a big-endian host byte-swap, on a little-endian
host the identity.  The host endianness is the boolean argument. -/
def bswapIfBE (cfg : Cfg) (be : Bool) (x : Nat) : Nat :=
  if be then bswap cfg x else x

/-- Byte idx of the user key as seen by setup: the key byte when idx < b,
and the zero padding byte otherwise. -/
def keyByte (b : Nat) (key : Nat → Nat) (idx : Nat) : Nat :=
  if idx < b then key idx % 256 else 0

/-- L_words of rc6.c: max(1, (b + sizeof(WORD) - 1) / sizeof(WORD)). -/
def lWords (cfg : Cfg) (b : Nat) : Nat :=
  max 1 ((b + wordBytes cfg - 1) / wordBytes cfg)

/-- A run of n consecutive key bytes beginning at byte address start, as
the byte-copy loop of setup lays them out. -/
def byteListFrom (b : Nat) (key : Nat → Nat) (start : Nat) : Nat → List Nat
  | 0 => []
  | n + 1 => keyByte b key start :: byteListFrom b key (start + 1) n

/-- The bytes of key word j in memory address order: key bytes packed
consecutively, zero beyond the key length. -/
def keyWordBytes (cfg : Cfg) (b : Nat) (key : Nat → Nat) (j : Nat) : List Nat :=
  byteListFrom b key (j * wordBytes cfg) (wordBytes cfg)

/-- Key word j as setup reads it on a little-endian host: the bytes packed
least-significant-byte first. -/
def packWord (cfg : Cfg) (b : Nat) (key : Nat → Nat) (j : Nat) : Nat :=
  wordOfBytesLE (keyWordBytes cfg b key j)

/-- State of the key-mixing loop of setup: accumulators A and B, cursors
i and j, and the contents of the S and L arrays. -/
structure MixSt where
  A : Nat
  B : Nat
  i : Nat
  j : Nat
  S : Nat → Nat
  L : Nat → Nat

/-- One iteration of the key-mixing loop of setup: wrap the cursors, then
A = S[i] = rotl(S[i]+A+B, 3) and B = L[j] = rotl(L[j]+A+B, (A+B) mod WORD_SZ),
then advance both cursors. -/
def mixStep (cfg : Cfg) (sw lw : Nat) (st : MixSt) : MixSt :=
  let i := if st.i = sw then 0 else st.i
  let j := if st.j = lw then 0 else st.j
  let a := rotl cfg ((st.S i + st.A + st.B) % cfg.M) 3
  let s2 : Nat → Nat := fun k => if k = i then a else st.S k
  let bv := rotl cfg ((st.L j + a + st.B) % cfg.M) (((a + st.B) % cfg.M) % cfg.wsz)
  let l2 : Nat → Nat := fun k => if k = j then bv else st.L k
  ⟨a, bv, i + 1, j + 1, s2, l2⟩

/-- The key-mixing loop of setup, iterated n times. -/
def mixLoop (cfg : Cfg) (sw lw : Nat) : Nat → MixSt → MixSt
  | 0, st => st
  | n + 1, st => mixLoop cfg sw lw n (mixStep cfg sw lw st)

/-- The constant fill of S: S[0] = P and S[i] = S[i-1] + Q with wraparound
addition. -/
def sFill (cfg : Cfg) : Nat → Nat
  | 0 => cfg.P % cfg.M
  | i + 1 => (sFill cfg i + cfg.Q) % cfg.M

/-- The successful branch of setup for a given table size sw and key word
array L: fill S with the constants over the caller memory S0, then run the
mixing loop 3 * max(L_words, S_words) times and return the final S. -/
def setupCore (cfg : Cfg) (sw lw : Nat) (L : Nat → Nat) (S0 : Nat → Nat) : Nat → Nat :=
  let sf : Nat → Nat := fun i =>
    if i = 0 then sFill cfg 0 else if i < sw then sFill cfg i else S0 i
  (mixLoop cfg sw lw (3 * max lw sw) ⟨0, 0, 0, 0, sf, L⟩).S

/-- The successful branch of setup: key words packed from the key bytes on a
little-endian host. -/
def setupGo (cfg : Cfg) (sw b : Nat) (key : Nat → Nat) (S0 : Nat → Nat) : Nat → Nat :=
  setupCore cfg sw (lWords cfg b) (packWord cfg b key) S0

/-- setup of rc6.c: validate the parameters, and either return -1 leaving
the caller memory untouched, or return 0 with the table populated. -/
def setupRes (cfg : Cfg) (sw : Nat) (w r b : Int) (key : Nat → Nat)
    (S0 : Nat → Nat) : Int × (Nat → Nat) :=
  if (cfg.wsz : Int) ≠ w ∨ b < 0 ∨ b > 255 ∨ r < 0 ∨ r > 255 ∨ Int.tmod r 4 ≠ 0 then
    (-1, S0)
  else
    (0, setupGo cfg sw b.toNat key S0)

/-- rc5_setup of rc6.c: setup with table size 2r+2. -/
def rc5_setup (cfg : Cfg) (w r b : Int) (key : Nat → Nat)
    (S0 : Nat → Nat) : Int × (Nat → Nat) :=
  setupRes cfg (2 * r.toNat + 2) w r b key S0

/-- rc6_setup of rc6.c: setup with table size 2r+4. -/
def rc6_setup (cfg : Cfg) (w r b : Int) (key : Nat → Nat)
    (S0 : Nat → Nat) : Int × (Nat → Nat) :=
  setupRes cfg (2 * r.toNat + 4) w r b key S0

/-- One RC5 encryption round with 0-based round index i:
A = rotl(A xor B, B mod WORD_SZ) + S[2i+2] then
B = rotl(B xor A, A mod WORD_SZ) + S[2i+3]. -/
def rc5EncRound (cfg : Cfg) (S : Nat → Nat) (i : Nat) (st : Nat × Nat) : Nat × Nat :=
  let a := wadd cfg (rotl cfg (wxor st.1 st.2) (st.2 % cfg.wsz)) (S (2 * i + 2))
  let b := wadd cfg (rotl cfg (wxor st.2 a) (a % cfg.wsz)) (S (2 * i + 3))
  (a, b)

/-- RC5 encryption rounds i, i+1, ..., i+n-1 in order. -/
def rc5EncFrom (cfg : Cfg) (S : Nat → Nat) : Nat → Nat → Nat × Nat → Nat × Nat
  | _, 0, st => st
  | i, n + 1, st => rc5EncFrom cfg S (i + 1) n (rc5EncRound cfg S i st)

/-- The outer loop of rc5_encrypt: k iterations of four consecutive rounds
each, starting at round index base. -/
def rc5EncOuter (cfg : Cfg) (S : Nat → Nat) : Nat → Nat → Nat × Nat → Nat × Nat
  | 0, _, st => st
  | k + 1, base, st => rc5EncOuter cfg S k (base + 4) (rc5EncFrom cfg S base 4 st)

/-- rc5_encrypt of rc6.c: whitening additions of S[0] and S[1], then r/4
outer iterations of four rounds each. -/
def rc5_encrypt (cfg : Cfg) (S : Nat → Nat) (r : Nat) (pt : Nat × Nat) : Nat × Nat :=
  rc5EncOuter cfg S (r / 4) 0 (wadd cfg pt.1 (S 0), wadd cfg pt.2 (S 1))

/-- One RC5 decryption round with 0-based round index i, undoing encryption
round i: B = rotr(B - S[2i+3], A mod WORD_SZ) xor A then
A = rotr(A - S[2i+2], B mod WORD_SZ) xor B. -/
def rc5DecRound (cfg : Cfg) (S : Nat → Nat) (i : Nat) (st : Nat × Nat) : Nat × Nat :=
  let b := wxor (rotr cfg (wsub cfg st.2 (S (2 * i + 3))) (st.1 % cfg.wsz)) st.1
  let a := wxor (rotr cfg (wsub cfg st.1 (S (2 * i + 2))) (b % cfg.wsz)) b
  (a, b)

/-- RC5 decryption rounds i+n-1, ..., i+1, i in order (the table pointer
walks downward). -/
def rc5DecFrom (cfg : Cfg) (S : Nat → Nat) : Nat → Nat → Nat × Nat → Nat × Nat
  | _, 0, st => st
  | i, n + 1, st => rc5DecRound cfg S i (rc5DecFrom cfg S (i + 1) n st)

/-- The outer loop of rc5_decrypt: k iterations of four consecutive rounds
each, walking downward from round index base - 1. -/
def rc5DecOuter (cfg : Cfg) (S : Nat → Nat) : Nat → Nat → Nat × Nat → Nat × Nat
  | 0, _, st => st
  | k + 1, base, st => rc5DecOuter cfg S k (base - 4) (rc5DecFrom cfg S (base - 4) 4 st)

/-- rc5_decrypt of rc6.c: r/4 outer iterations of four inverse rounds each
walking the table downward from index 2r+1, then the final whitening
subtractions at the two indices where the pointer stops. -/
def rc5_decrypt (cfg : Cfg) (S : Nat → Nat) (r : Nat) (ct : Nat × Nat) : Nat × Nat :=
  (wsub cfg (rc5DecOuter cfg S (r / 4) r ct).1 (S (2 * (r - 4 * (r / 4)))),
   wsub cfg (rc5DecOuter cfg S (r / 4) r ct).2 (S (2 * (r - 4 * (r / 4)) + 1)))

/-- A four-word RC6 block or register state. -/
structure Blk4 where
  a : Nat
  b : Nat
  c : Nat
  d : Nat
deriving DecidableEq

/-- The RC6 quadratic function: rotl(x * (2x + 1), LGW) in word
arithmetic. -/
def rc6F (cfg : Cfg) (x : Nat) : Nat :=
  rotl cfg ((x * (2 * x + 1)) % cfg.M) cfg.lgw

/-- One RC6 encryption round with 0-based round index i: t = f(B), u = f(D),
A = rotl(A xor t, u mod WORD_SZ) + S[2i+2],
C = rotl(C xor u, t mod WORD_SZ) + S[2i+3], then the register rotation
(A,B,C,D) to (B,C,D,A). -/
def rc6EncRound (cfg : Cfg) (S : Nat → Nat) (i : Nat) (st : Blk4) : Blk4 :=
  let t := rc6F cfg st.b
  let u := rc6F cfg st.d
  let a2 := wadd cfg (rotl cfg (wxor st.a t) (u % cfg.wsz)) (S (2 * i + 2))
  let c2 := wadd cfg (rotl cfg (wxor st.c u) (t % cfg.wsz)) (S (2 * i + 3))
  ⟨st.b, c2, st.d, a2⟩

/-- RC6 encryption rounds i, i+1, ..., i+n-1 in order. -/
def rc6EncFrom (cfg : Cfg) (S : Nat → Nat) : Nat → Nat → Blk4 → Blk4
  | _, 0, st => st
  | i, n + 1, st => rc6EncFrom cfg S (i + 1) n (rc6EncRound cfg S i st)

/-- The outer loop of rc6_encrypt: k iterations of four consecutive rounds
each, starting at round index base. -/
def rc6EncOuter (cfg : Cfg) (S : Nat → Nat) : Nat → Nat → Blk4 → Blk4
  | 0, _, st => st
  | k + 1, base, st => rc6EncOuter cfg S k (base + 4) (rc6EncFrom cfg S base 4 st)

/-- rc6_encrypt of rc6.c: whitening additions of S[0] to p1 and S[1] to p3,
r/4 outer iterations of four rounds each, then the closing additions at the
two indices where the pointer stops. -/
def rc6_encrypt (cfg : Cfg) (S : Nat → Nat) (r : Nat) (pt : Blk4) : Blk4 :=
  ⟨wadd cfg (rc6EncOuter cfg S (r / 4) 0
      ⟨pt.a, wadd cfg pt.b (S 0), pt.c, wadd cfg pt.d (S 1)⟩).a (S (2 * (4 * (r / 4)) + 2)),
   (rc6EncOuter cfg S (r / 4) 0
      ⟨pt.a, wadd cfg pt.b (S 0), pt.c, wadd cfg pt.d (S 1)⟩).b,
   wadd cfg (rc6EncOuter cfg S (r / 4) 0
      ⟨pt.a, wadd cfg pt.b (S 0), pt.c, wadd cfg pt.d (S 1)⟩).c (S (2 * (4 * (r / 4)) + 3)),
   (rc6EncOuter cfg S (r / 4) 0
      ⟨pt.a, wadd cfg pt.b (S 0), pt.c, wadd cfg pt.d (S 1)⟩).d⟩

/-- One RC6 decryption round with 0-based round index i, undoing encryption
round i: rotate the registers back, recompute t and u, and undo the two
add-rotate-xor steps. -/
def rc6DecRound (cfg : Cfg) (S : Nat → Nat) (i : Nat) (st : Blk4) : Blk4 :=
  let a1 := st.d
  let b1 := st.a
  let c1 := st.b
  let d1 := st.c
  let u := rc6F cfg d1
  let t := rc6F cfg b1
  let c2 := wxor (rotr cfg (wsub cfg c1 (S (2 * i + 3))) (t % cfg.wsz)) u
  let a2 := wxor (rotr cfg (wsub cfg a1 (S (2 * i + 2))) (u % cfg.wsz)) t
  ⟨a2, b1, c2, d1⟩

/-- RC6 decryption rounds i+n-1, ..., i+1, i in order (the table pointer
walks downward). -/
def rc6DecFrom (cfg : Cfg) (S : Nat → Nat) : Nat → Nat → Blk4 → Blk4
  | _, 0, st => st
  | i, n + 1, st => rc6DecRound cfg S i (rc6DecFrom cfg S (i + 1) n st)

/-- The outer loop of rc6_decrypt: k iterations of four consecutive inverse
rounds each, walking downward from round index base - 1. -/
def rc6DecOuter (cfg : Cfg) (S : Nat → Nat) : Nat → Nat → Blk4 → Blk4
  | 0, _, st => st
  | k + 1, base, st => rc6DecOuter cfg S k (base - 4) (rc6DecFrom cfg S (base - 4) 4 st)

/-- rc6_decrypt of rc6.c: subtract S[2r+3] from c2 and S[2r+2] from c0,
run r/4 outer iterations of four inverse rounds each walking the table
downward, then subtract the two initial whitening subkeys at the indices
where the pointer stops. -/
def rc6_decrypt (cfg : Cfg) (S : Nat → Nat) (r : Nat) (ct : Blk4) : Blk4 :=
  ⟨(rc6DecOuter cfg S (r / 4) r
      ⟨wsub cfg ct.a (S (2 * r + 2)), ct.b, wsub cfg ct.c (S (2 * r + 3)), ct.d⟩).a,
   wsub cfg (rc6DecOuter cfg S (r / 4) r
      ⟨wsub cfg ct.a (S (2 * r + 2)), ct.b, wsub cfg ct.c (S (2 * r + 3)), ct.d⟩).b
     (S (2 * (r - 4 * (r / 4)))),
   (rc6DecOuter cfg S (r / 4) r
      ⟨wsub cfg ct.a (S (2 * r + 2)), ct.b, wsub cfg ct.c (S (2 * r + 3)), ct.d⟩).c,
   wsub cfg (rc6DecOuter cfg S (r / 4) r
      ⟨wsub cfg ct.a (S (2 * r + 2)), ct.b, wsub cfg ct.c (S (2 * r + 3)), ct.d⟩).d
     (S (2 * (r - 4 * (r / 4)) + 1))⟩

/-! Basic word-arithmetic lemmas. -/

theorem M_pos (cfg : Cfg) : 0 < cfg.M := Nat.two_pow_pos cfg.wsz

theorem wadd_lt (cfg : Cfg) (a b : Nat) : wadd cfg a b < cfg.M :=
  Nat.mod_lt _ (M_pos cfg)

theorem wsub_lt (cfg : Cfg) (a b : Nat) : wsub cfg a b < cfg.M :=
  Nat.mod_lt _ (M_pos cfg)

theorem rotl_lt (cfg : Cfg) (x d : Nat) : rotl cfg x d < cfg.M :=
  Nat.mod_lt _ (M_pos cfg)

theorem rotr_lt (cfg : Cfg) (x d : Nat) : rotr cfg x d < cfg.M :=
  Nat.mod_lt _ (M_pos cfg)

theorem wxor_lt (cfg : Cfg) {a b : Nat} (ha : a < cfg.M) (hb : b < cfg.M) :
    wxor a b < cfg.M :=
  Nat.xor_lt_two_pow ha hb

theorem wxor_cancel (a b : Nat) : wxor (wxor a b) b = a :=
  Nat.xor_cancel_right b a

theorem rc6F_lt (cfg : Cfg) (x : Nat) : rc6F cfg x < cfg.M :=
  Nat.mod_lt _ (M_pos cfg)

/-- Subtracting a word after adding it recovers the original word. -/
theorem wsub_wadd (cfg : Cfg) {a : Nat} (s : Nat) (ha : a < cfg.M) :
    wsub cfg (wadd cfg a s) s = a := by
  unfold wsub wadd
  have hM : 0 < cfg.M := M_pos cfg
  have hu : s % cfg.M < cfg.M := Nat.mod_lt _ hM
  rw [Nat.mod_add_mod]
  have h1 : a + s + (cfg.M - s % cfg.M) = a + cfg.M * (s / cfg.M) + cfg.M := by
    have h2 := Nat.div_add_mod s cfg.M
    omega
  rw [h1, Nat.add_mod_right, Nat.add_mul_mod_self_left, Nat.mod_eq_of_lt ha]

/-- Rotating right undoes rotating left, for words and in-range rotation
amounts. -/
theorem rotr_rotl (cfg : Cfg) {x d : Nat} (hx : x < cfg.M) (hd : d < cfg.wsz) :
    rotr cfg (rotl cfg x d) d = x := by
  have hxf : ∀ m, cfg.wsz ≤ m → x.testBit m = false := by
    intro m hm
    exact Nat.testBit_lt_two_pow
      (lt_of_lt_of_le hx (Nat.pow_le_pow_right (by norm_num) hm))
  unfold rotl rotr Cfg.M
  apply Nat.eq_of_testBit_eq
  intro j
  simp only [Nat.testBit_mod_two_pow, Nat.testBit_lor, Nat.testBit_shiftLeft,
    Nat.testBit_shiftRight, ge_iff_le]
  rcases Nat.lt_or_ge j cfg.wsz with hjw | hjw
  · rcases Nat.lt_or_ge j (cfg.wsz - d) with hj2 | hj2
    · have e1 : d + j - d = j := by omega
      have e2 : x.testBit (cfg.wsz - d + (d + j)) = false := hxf _ (by omega)
      simp [hjw, hj2, e1, e2, Nat.not_le.mpr hj2, Nat.lt_of_lt_of_le hj2 (Nat.sub_le _ _),
        show d + j < cfg.wsz by omega, show d ≤ d + j by omega]
    · have e1 : ¬ (d + j < cfg.wsz) := by omega
      have e2 : j - (cfg.wsz - d) < cfg.wsz := by omega
      have e3 : ¬ (d ≤ j - (cfg.wsz - d)) := by omega
      have e4 : cfg.wsz - d + (j - (cfg.wsz - d)) = j := by omega
      simp [hjw, hj2, e1, e2, e3, e4]
  · have e0 : ¬ (j < cfg.wsz) := by omega
    simp [e0, hxf j hjw]

/-! Round-trip machinery: each decryption round inverts the matching
encryption round, and the loops compose. -/

/-- Both words of an RC5 state are words, below 2 ^ WORD_SZ. -/
def inv2 (cfg : Cfg) (st : Nat × Nat) : Prop := st.1 < cfg.M ∧ st.2 < cfg.M

/-- All four words of an RC6 state are words, below 2 ^ WORD_SZ. -/
def inv4 (cfg : Cfg) (st : Blk4) : Prop :=
  st.a < cfg.M ∧ st.b < cfg.M ∧ st.c < cfg.M ∧ st.d < cfg.M

instance (cfg : Cfg) (st : Nat × Nat) : Decidable (inv2 cfg st) := by
  unfold inv2
  infer_instance

instance (cfg : Cfg) (st : Blk4) : Decidable (inv4 cfg st) := by
  unfold inv4
  infer_instance

theorem rc5EncRound_inv (cfg : Cfg) (S : Nat → Nat) (i : Nat) (st : Nat × Nat) :
    inv2 cfg (rc5EncRound cfg S i st) :=
  ⟨wadd_lt cfg _ _, wadd_lt cfg _ _⟩

theorem rc6EncRound_inv (cfg : Cfg) (S : Nat → Nat) (i : Nat) {st : Blk4}
    (h : inv4 cfg st) : inv4 cfg (rc6EncRound cfg S i st) :=
  ⟨h.2.1, wadd_lt cfg _ _, h.2.2.2, wadd_lt cfg _ _⟩

/-- RC5 decryption round i undoes RC5 encryption round i. -/
theorem rc5DecRound_rc5EncRound (cfg : Cfg) (hw : 0 < cfg.wsz) (S : Nat → Nat)
    (i : Nat) {st : Nat × Nat} (h : inv2 cfg st) :
    rc5DecRound cfg S i (rc5EncRound cfg S i st) = st := by
  obtain ⟨A, B⟩ := st
  have h1 : A < cfg.M := h.1
  have h2 : B < cfg.M := h.2
  have haM : wadd cfg (rotl cfg (wxor A B) (B % cfg.wsz)) (S (2 * i + 2)) < cfg.M :=
    wadd_lt cfg _ _
  set a1 := wadd cfg (rotl cfg (wxor A B) (B % cfg.wsz)) (S (2 * i + 2)) with ha1
  set b1 := wadd cfg (rotl cfg (wxor B a1) (a1 % cfg.wsz)) (S (2 * i + 3)) with hb1
  have hB : wxor (rotr cfg (wsub cfg b1 (S (2 * i + 3))) (a1 % cfg.wsz)) a1 = B := by
    rw [hb1, wsub_wadd cfg _ (rotl_lt cfg _ _),
      rotr_rotl cfg (wxor_lt cfg h2 haM) (Nat.mod_lt _ hw), wxor_cancel]
  have hA : wxor (rotr cfg (wsub cfg a1 (S (2 * i + 2))) (B % cfg.wsz)) B = A := by
    rw [ha1, wsub_wadd cfg _ (rotl_lt cfg _ _),
      rotr_rotl cfg (wxor_lt cfg h1 h2) (Nat.mod_lt _ hw), wxor_cancel]
  have hEnc : rc5EncRound cfg S i (A, B) = (a1, b1) := rfl
  show rc5DecRound cfg S i (rc5EncRound cfg S i (A, B)) = (A, B)
  rw [hEnc]
  show (wxor (rotr cfg (wsub cfg a1 (S (2 * i + 2)))
        ((wxor (rotr cfg (wsub cfg b1 (S (2 * i + 3))) (a1 % cfg.wsz)) a1) % cfg.wsz))
        (wxor (rotr cfg (wsub cfg b1 (S (2 * i + 3))) (a1 % cfg.wsz)) a1),
      wxor (rotr cfg (wsub cfg b1 (S (2 * i + 3))) (a1 % cfg.wsz)) a1) = (A, B)
  rw [hB, hA]

/-- RC6 decryption round i undoes RC6 encryption round i. -/
theorem rc6DecRound_rc6EncRound (cfg : Cfg) (hw : 0 < cfg.wsz) (S : Nat → Nat)
    (i : Nat) {st : Blk4} (h : inv4 cfg st) :
    rc6DecRound cfg S i (rc6EncRound cfg S i st) = st := by
  obtain ⟨A, B, C, D⟩ := st
  have ha : A < cfg.M := h.1
  have hc : C < cfg.M := h.2.2.1
  set a2 := wadd cfg (rotl cfg (wxor A (rc6F cfg B)) (rc6F cfg D % cfg.wsz))
    (S (2 * i + 2)) with ha2
  set c2 := wadd cfg (rotl cfg (wxor C (rc6F cfg D)) (rc6F cfg B % cfg.wsz))
    (S (2 * i + 3)) with hc2
  have hC : wxor (rotr cfg (wsub cfg c2 (S (2 * i + 3))) (rc6F cfg B % cfg.wsz))
      (rc6F cfg D) = C := by
    rw [hc2, wsub_wadd cfg _ (rotl_lt cfg _ _),
      rotr_rotl cfg (wxor_lt cfg hc (rc6F_lt cfg D)) (Nat.mod_lt _ hw), wxor_cancel]
  have hA : wxor (rotr cfg (wsub cfg a2 (S (2 * i + 2))) (rc6F cfg D % cfg.wsz))
      (rc6F cfg B) = A := by
    rw [ha2, wsub_wadd cfg _ (rotl_lt cfg _ _),
      rotr_rotl cfg (wxor_lt cfg ha (rc6F_lt cfg B)) (Nat.mod_lt _ hw), wxor_cancel]
  have hEnc : rc6EncRound cfg S i ⟨A, B, C, D⟩ = ⟨B, c2, D, a2⟩ := rfl
  show rc6DecRound cfg S i (rc6EncRound cfg S i ⟨A, B, C, D⟩) = ⟨A, B, C, D⟩
  rw [hEnc]
  show (⟨wxor (rotr cfg (wsub cfg a2 (S (2 * i + 2))) (rc6F cfg D % cfg.wsz)) (rc6F cfg B),
      B,
      wxor (rotr cfg (wsub cfg c2 (S (2 * i + 3))) (rc6F cfg B % cfg.wsz)) (rc6F cfg D),
      D⟩ : Blk4) = ⟨A, B, C, D⟩
  rw [hC, hA]

theorem rc5EncFrom_inv (cfg : Cfg) (S : Nat → Nat) :
    ∀ n i st, inv2 cfg (rc5EncFrom cfg S i n st) ∨ rc5EncFrom cfg S i n st = st := by
  intro n
  induction n with
  | zero => intro i st; right; rfl
  | succ n ih =>
    intro i st
    rcases ih (i + 1) (rc5EncRound cfg S i st) with h | h
    · left; exact h
    · left; rw [show rc5EncFrom cfg S i (n + 1) st =
        rc5EncFrom cfg S (i + 1) n (rc5EncRound cfg S i st) from rfl, h]
      exact rc5EncRound_inv cfg S i st

theorem rc6EncFrom_inv (cfg : Cfg) (S : Nat → Nat) :
    ∀ n i {st}, inv4 cfg st → inv4 cfg (rc6EncFrom cfg S i n st) := by
  intro n
  induction n with
  | zero => intro i st h; exact h
  | succ n ih => intro i st h; exact ih (i + 1) (rc6EncRound_inv cfg S i h)

/-- The RC5 decryption loop inverts the RC5 encryption loop round by
round. -/
theorem rc5DecFrom_rc5EncFrom (cfg : Cfg) (hw : 0 < cfg.wsz) (S : Nat → Nat) :
    ∀ n i {st}, inv2 cfg st →
      rc5DecFrom cfg S i n (rc5EncFrom cfg S i n st) = st := by
  intro n
  induction n with
  | zero => intro i st _; rfl
  | succ n ih =>
    intro i st h
    have h1 : inv2 cfg (rc5EncRound cfg S i st) := rc5EncRound_inv cfg S i st
    calc rc5DecFrom cfg S i (n + 1) (rc5EncFrom cfg S i (n + 1) st)
        = rc5DecRound cfg S i
            (rc5DecFrom cfg S (i + 1) n
              (rc5EncFrom cfg S (i + 1) n (rc5EncRound cfg S i st))) := rfl
      _ = rc5DecRound cfg S i (rc5EncRound cfg S i st) := by rw [ih (i + 1) h1]
      _ = st := rc5DecRound_rc5EncRound cfg hw S i h

/-- The RC6 decryption loop inverts the RC6 encryption loop round by
round. -/
theorem rc6DecFrom_rc6EncFrom (cfg : Cfg) (hw : 0 < cfg.wsz) (S : Nat → Nat) :
    ∀ n i {st}, inv4 cfg st →
      rc6DecFrom cfg S i n (rc6EncFrom cfg S i n st) = st := by
  intro n
  induction n with
  | zero => intro i st _; rfl
  | succ n ih =>
    intro i st h
    have h1 : inv4 cfg (rc6EncRound cfg S i st) := rc6EncRound_inv cfg S i h
    calc rc6DecFrom cfg S i (n + 1) (rc6EncFrom cfg S i (n + 1) st)
        = rc6DecRound cfg S i
            (rc6DecFrom cfg S (i + 1) n
              (rc6EncFrom cfg S (i + 1) n (rc6EncRound cfg S i st))) := rfl
      _ = rc6DecRound cfg S i (rc6EncRound cfg S i st) := by rw [ih (i + 1) h1]
      _ = st := rc6DecRound_rc6EncRound cfg hw S i h

/-! Flattening of the four-round inner loops into flat round sequences. -/

theorem rc5EncFrom_add (cfg : Cfg) (S : Nat → Nat) :
    ∀ m n i st, rc5EncFrom cfg S i (m + n) st =
      rc5EncFrom cfg S (i + m) n (rc5EncFrom cfg S i m st) := by
  intro m
  induction m with
  | zero => intro n i st; rw [Nat.zero_add]; rfl
  | succ m ih =>
    intro n i st
    have e : m + 1 + n = (m + n) + 1 := by omega
    rw [e]
    show rc5EncFrom cfg S (i + 1) (m + n) (rc5EncRound cfg S i st) =
      rc5EncFrom cfg S (i + (m + 1)) n (rc5EncFrom cfg S (i + 1) m (rc5EncRound cfg S i st))
    rw [ih n (i + 1) (rc5EncRound cfg S i st),
      show i + 1 + m = i + (m + 1) from by omega]

theorem rc5EncOuter_eq (cfg : Cfg) (S : Nat → Nat) :
    ∀ k base st, rc5EncOuter cfg S k base st = rc5EncFrom cfg S base (4 * k) st := by
  intro k
  induction k with
  | zero => intro base st; rfl
  | succ k ih =>
    intro base st
    show rc5EncOuter cfg S k (base + 4) (rc5EncFrom cfg S base 4 st) = _
    rw [ih (base + 4) (rc5EncFrom cfg S base 4 st)]
    have e : 4 * (k + 1) = 4 + 4 * k := by omega
    rw [e, rc5EncFrom_add cfg S 4 (4 * k) base st]

theorem rc5DecFrom_add (cfg : Cfg) (S : Nat → Nat) :
    ∀ m n i st, rc5DecFrom cfg S i (m + n) st =
      rc5DecFrom cfg S i m (rc5DecFrom cfg S (i + m) n st) := by
  intro m
  induction m with
  | zero => intro n i st; rw [Nat.zero_add]; rfl
  | succ m ih =>
    intro n i st
    have e : m + 1 + n = (m + n) + 1 := by omega
    rw [e]
    show rc5DecRound cfg S i (rc5DecFrom cfg S (i + 1) (m + n) st) = _
    rw [ih n (i + 1) st, show i + 1 + m = i + (m + 1) from by omega]
    rfl

theorem rc5DecOuter_eq (cfg : Cfg) (S : Nat → Nat) :
    ∀ k base st, 4 * k ≤ base →
      rc5DecOuter cfg S k base st = rc5DecFrom cfg S (base - 4 * k) (4 * k) st := by
  intro k
  induction k with
  | zero => intro base st _; rfl
  | succ k ih =>
    intro base st hk
    show rc5DecOuter cfg S k (base - 4) (rc5DecFrom cfg S (base - 4) 4 st) = _
    rw [ih (base - 4) (rc5DecFrom cfg S (base - 4) 4 st) (by omega)]
    have e : 4 * (k + 1) = 4 * k + 4 := by omega
    rw [e, rc5DecFrom_add cfg S (4 * k) 4 (base - (4 * k + 4)) st]
    have e2 : base - 4 - 4 * k = base - (4 * k + 4) := by omega
    have e3 : base - (4 * k + 4) + 4 * k = base - 4 := by omega
    rw [e2, e3]

theorem rc6EncFrom_add (cfg : Cfg) (S : Nat → Nat) :
    ∀ m n i st, rc6EncFrom cfg S i (m + n) st =
      rc6EncFrom cfg S (i + m) n (rc6EncFrom cfg S i m st) := by
  intro m
  induction m with
  | zero => intro n i st; rw [Nat.zero_add]; rfl
  | succ m ih =>
    intro n i st
    have e : m + 1 + n = (m + n) + 1 := by omega
    rw [e]
    show rc6EncFrom cfg S (i + 1) (m + n) (rc6EncRound cfg S i st) =
      rc6EncFrom cfg S (i + (m + 1)) n (rc6EncFrom cfg S (i + 1) m (rc6EncRound cfg S i st))
    rw [ih n (i + 1) (rc6EncRound cfg S i st),
      show i + 1 + m = i + (m + 1) from by omega]

theorem rc6EncOuter_eq (cfg : Cfg) (S : Nat → Nat) :
    ∀ k base st, rc6EncOuter cfg S k base st = rc6EncFrom cfg S base (4 * k) st := by
  intro k
  induction k with
  | zero => intro base st; rfl
  | succ k ih =>
    intro base st
    show rc6EncOuter cfg S k (base + 4) (rc6EncFrom cfg S base 4 st) = _
    rw [ih (base + 4) (rc6EncFrom cfg S base 4 st)]
    have e : 4 * (k + 1) = 4 + 4 * k := by omega
    rw [e, rc6EncFrom_add cfg S 4 (4 * k) base st]

theorem rc6DecFrom_add (cfg : Cfg) (S : Nat → Nat) :
    ∀ m n i st, rc6DecFrom cfg S i (m + n) st =
      rc6DecFrom cfg S i m (rc6DecFrom cfg S (i + m) n st) := by
  intro m
  induction m with
  | zero => intro n i st; rw [Nat.zero_add]; rfl
  | succ m ih =>
    intro n i st
    have e : m + 1 + n = (m + n) + 1 := by omega
    rw [e]
    show rc6DecRound cfg S i (rc6DecFrom cfg S (i + 1) (m + n) st) = _
    rw [ih n (i + 1) st, show i + 1 + m = i + (m + 1) from by omega]
    rfl

theorem rc6DecOuter_eq (cfg : Cfg) (S : Nat → Nat) :
    ∀ k base st, 4 * k ≤ base →
      rc6DecOuter cfg S k base st = rc6DecFrom cfg S (base - 4 * k) (4 * k) st := by
  intro k
  induction k with
  | zero => intro base st _; rfl
  | succ k ih =>
    intro base st hk
    show rc6DecOuter cfg S k (base - 4) (rc6DecFrom cfg S (base - 4) 4 st) = _
    rw [ih (base - 4) (rc6DecFrom cfg S (base - 4) 4 st) (by omega)]
    have e : 4 * (k + 1) = 4 * k + 4 := by omega
    rw [e, rc6DecFrom_add cfg S (4 * k) 4 (base - (4 * k + 4)) st]
    have e2 : base - 4 - 4 * k = base - (4 * k + 4) := by omega
    have e3 : base - (4 * k + 4) + 4 * k = base - 4 := by omega
    rw [e2, e3]

/-- RC5 round trip over an arbitrary table: decryption undoes encryption
for any round count that is a multiple of four. -/
theorem rc5_roundtrip (cfg : Cfg) (hw : 0 < cfg.wsz) (S : Nat → Nat) (r : Nat)
    (hr : r % 4 = 0) (pt : Nat × Nat) (h1 : pt.1 < cfg.M) (h2 : pt.2 < cfg.M) :
    rc5_decrypt cfg S r (rc5_encrypt cfg S r pt) = pt := by
  have hw4 : 4 * (r / 4) = r := by omega
  unfold rc5_encrypt rc5_decrypt
  simp only [rc5EncOuter_eq]
  rw [rc5DecOuter_eq cfg S (r / 4) r _ (by omega), hw4, Nat.sub_self]
  have hst : inv2 cfg (wadd cfg pt.1 (S 0), wadd cfg pt.2 (S 1)) :=
    ⟨wadd_lt cfg _ _, wadd_lt cfg _ _⟩
  rw [rc5DecFrom_rc5EncFrom cfg hw S r 0 hst]
  show (wsub cfg (wadd cfg pt.1 (S 0)) (S 0), wsub cfg (wadd cfg pt.2 (S 1)) (S 1)) = pt
  rw [wsub_wadd cfg (S 0) h1, wsub_wadd cfg (S 1) h2]

/-- RC6 round trip over an arbitrary table: decryption undoes encryption
for any round count that is a multiple of four. -/
theorem rc6_roundtrip (cfg : Cfg) (hw : 0 < cfg.wsz) (S : Nat → Nat) (r : Nat)
    (hr : r % 4 = 0) (pt : Blk4) (h : inv4 cfg pt) :
    rc6_decrypt cfg S r (rc6_encrypt cfg S r pt) = pt := by
  obtain ⟨ha, hb, hc, hd⟩ := h
  have hw4 : 4 * (r / 4) = r := by omega
  have hst : inv4 cfg ⟨pt.a, wadd cfg pt.b (S 0), pt.c, wadd cfg pt.d (S 1)⟩ :=
    ⟨ha, wadd_lt cfg _ _, hc, wadd_lt cfg _ _⟩
  have hmid : inv4 cfg (rc6EncFrom cfg S 0 r
      ⟨pt.a, wadd cfg pt.b (S 0), pt.c, wadd cfg pt.d (S 1)⟩) :=
    rc6EncFrom_inv cfg S r 0 hst
  unfold rc6_encrypt rc6_decrypt
  simp only [rc6EncOuter_eq]
  rw [rc6DecOuter_eq cfg S (r / 4) r _ (by omega), hw4, Nat.sub_self]
  rw [wsub_wadd cfg (S (2 * r + 2)) hmid.1, wsub_wadd cfg (S (2 * r + 3)) hmid.2.2.1]
  rw [show (⟨(rc6EncFrom cfg S 0 r ⟨pt.a, wadd cfg pt.b (S 0), pt.c, wadd cfg pt.d (S 1)⟩).a,
      (rc6EncFrom cfg S 0 r ⟨pt.a, wadd cfg pt.b (S 0), pt.c, wadd cfg pt.d (S 1)⟩).b,
      (rc6EncFrom cfg S 0 r ⟨pt.a, wadd cfg pt.b (S 0), pt.c, wadd cfg pt.d (S 1)⟩).c,
      (rc6EncFrom cfg S 0 r ⟨pt.a, wadd cfg pt.b (S 0), pt.c, wadd cfg pt.d (S 1)⟩).d⟩ : Blk4) =
      rc6EncFrom cfg S 0 r ⟨pt.a, wadd cfg pt.b (S 0), pt.c, wadd cfg pt.d (S 1)⟩ from rfl]
  rw [rc6DecFrom_rc6EncFrom cfg hw S r 0 hst]
  show (⟨pt.a, wsub cfg (wadd cfg pt.b (S 0)) (S 0), pt.c,
      wsub cfg (wadd cfg pt.d (S 1)) (S 1)⟩ : Blk4) = pt
  rw [wsub_wadd cfg (S 0) hb, wsub_wadd cfg (S 1) hd]

/-! Claim theorems. -/

/-- C1: for every valid parameter set (w equal to the compiled word width,
r in 0..255 with r divisible by 4, b in 0..255), every key and every block,
decrypting the encryption of the block with the table produced by the
corresponding setup recovers the original block, for RC5 and for RC6. -/
theorem rc5_rc6_setup_roundtrip (cfg : Cfg) (hw : 0 < cfg.wsz) (r b : Nat)
    (hr255 : r ≤ 255) (hr4 : r % 4 = 0) (hb : b ≤ 255)
    (key : Nat → Nat) (S0 S0' : Nat → Nat)
    (pt2 : Nat × Nat) (h1 : pt2.1 < cfg.M) (h2 : pt2.2 < cfg.M)
    (pt4 : Blk4) (h4 : inv4 cfg pt4) :
    rc5_decrypt cfg (rc5_setup cfg cfg.wsz r b key S0).2 r
        (rc5_encrypt cfg (rc5_setup cfg cfg.wsz r b key S0).2 r pt2) = pt2 ∧
    rc6_decrypt cfg (rc6_setup cfg cfg.wsz r b key S0').2 r
        (rc6_encrypt cfg (rc6_setup cfg cfg.wsz r b key S0').2 r pt4) = pt4 :=
  ⟨rc5_roundtrip cfg hw _ r hr4 pt2 h1 h2, rc6_roundtrip cfg hw _ r hr4 pt4 h4⟩

/-- Witness for C1 at the 8-bit configuration with r = 4 and a one-byte
key. -/
theorem rc5_rc6_setup_roundtrip_witness :
    0 < params8.wsz ∧ (4 : Nat) ≤ 255 ∧ (4 : Nat) % 4 = 0 ∧ (1 : Nat) ≤ 255 ∧
    ((5, 200) : Nat × Nat).1 < params8.M ∧ ((5, 200) : Nat × Nat).2 < params8.M ∧
    inv4 params8 ⟨1, 2, 3, 250⟩ ∧
    rc5_decrypt params8 (rc5_setup params8 params8.wsz 4 1 (fun _ => 18) (fun _ => 0)).2 4
        (rc5_encrypt params8 (rc5_setup params8 params8.wsz 4 1 (fun _ => 18) (fun _ => 0)).2 4
          (5, 200)) = (5, 200) ∧
    rc6_decrypt params8 (rc6_setup params8 params8.wsz 4 1 (fun _ => 18) (fun _ => 7)).2 4
        (rc6_encrypt params8 (rc6_setup params8 params8.wsz 4 1 (fun _ => 18) (fun _ => 7)).2 4
          ⟨1, 2, 3, 250⟩) = ⟨1, 2, 3, 250⟩ :=
  ⟨by decide, by decide, by decide, by decide, by decide, by decide, by decide,
    (rc5_rc6_setup_roundtrip params8 (by decide) 4 1 (by decide) (by decide) (by decide)
      (fun _ => 18) (fun _ => 0) (fun _ => 7) (5, 200) (by decide) (by decide)
      ⟨1, 2, 3, 250⟩ (by decide)).1,
    (rc5_rc6_setup_roundtrip params8 (by decide) 4 1 (by decide) (by decide) (by decide)
      (fun _ => 18) (fun _ => 0) (fun _ => 7) (5, 200) (by decide) (by decide)
      ⟨1, 2, 3, 250⟩ (by decide)).2⟩

/-- The validation condition of setup in rc6.c agrees with the condition of
the specification (which states the remainder test with the mathematical
remainder). -/
theorem setup_cond_iff (cfg : Cfg) (w r b : Int) :
    ((cfg.wsz : Int) ≠ w ∨ b < 0 ∨ b > 255 ∨ r < 0 ∨ r > 255 ∨ Int.tmod r 4 ≠ 0) ↔
    (w ≠ (cfg.wsz : Int) ∨ b < 0 ∨ b > 255 ∨ r < 0 ∨ r > 255 ∨ r % 4 ≠ 0) := by
  constructor
  · rintro (h | h | h | h | h | h)
    · exact Or.inl (Ne.symm h)
    · exact Or.inr (Or.inl h)
    · exact Or.inr (Or.inr (Or.inl h))
    · exact Or.inr (Or.inr (Or.inr (Or.inl h)))
    · exact Or.inr (Or.inr (Or.inr (Or.inr (Or.inl h))))
    · rcases lt_or_le r 0 with hr | hr
      · exact Or.inr (Or.inr (Or.inr (Or.inl hr)))
      · refine Or.inr (Or.inr (Or.inr (Or.inr (Or.inr ?_))))
        rwa [Int.tmod_eq_emod hr (by norm_num)] at h
  · rintro (h | h | h | h | h | h)
    · exact Or.inl (Ne.symm h)
    · exact Or.inr (Or.inl h)
    · exact Or.inr (Or.inr (Or.inl h))
    · exact Or.inr (Or.inr (Or.inr (Or.inl h)))
    · exact Or.inr (Or.inr (Or.inr (Or.inr (Or.inl h))))
    · rcases lt_or_le r 0 with hr | hr
      · exact Or.inr (Or.inr (Or.inr (Or.inl hr)))
      · refine Or.inr (Or.inr (Or.inr (Or.inr (Or.inr ?_))))
        rwa [Int.tmod_eq_emod hr (by norm_num)]

/-- C2: both rc5_setup and rc6_setup report the unsupported-parameters
failure exactly when w differs from the compiled word width, b is outside
0..255, r is outside 0..255, or r is not divisible by 4; on all other
inputs they succeed, returning 0. -/
theorem setup_fail_iff (cfg : Cfg) (w r b : Int) (key : Nat → Nat) (S0 : Nat → Nat) :
    ((rc5_setup cfg w r b key S0).1 = -1 ↔
      (w ≠ (cfg.wsz : Int) ∨ b < 0 ∨ b > 255 ∨ r < 0 ∨ r > 255 ∨ r % 4 ≠ 0)) ∧
    ((rc5_setup cfg w r b key S0).1 = 0 ↔
      ¬(w ≠ (cfg.wsz : Int) ∨ b < 0 ∨ b > 255 ∨ r < 0 ∨ r > 255 ∨ r % 4 ≠ 0)) ∧
    ((rc6_setup cfg w r b key S0).1 = -1 ↔
      (w ≠ (cfg.wsz : Int) ∨ b < 0 ∨ b > 255 ∨ r < 0 ∨ r > 255 ∨ r % 4 ≠ 0)) ∧
    ((rc6_setup cfg w r b key S0).1 = 0 ↔
      ¬(w ≠ (cfg.wsz : Int) ∨ b < 0 ∨ b > 255 ∨ r < 0 ∨ r > 255 ∨ r % 4 ≠ 0)) := by
  by_cases hc : (cfg.wsz : Int) ≠ w ∨ b < 0 ∨ b > 255 ∨ r < 0 ∨ r > 255 ∨ Int.tmod r 4 ≠ 0
  · have e5 : (rc5_setup cfg w r b key S0).1 = -1 := by
      unfold rc5_setup setupRes
      rw [if_pos hc]
    have e6 : (rc6_setup cfg w r b key S0).1 = -1 := by
      unfold rc6_setup setupRes
      rw [if_pos hc]
    have hcc := (setup_cond_iff cfg w r b).mp hc
    refine ⟨⟨fun _ => hcc, fun _ => e5⟩, ⟨fun h0 => ?_, fun hn => absurd hcc hn⟩,
      ⟨fun _ => hcc, fun _ => e6⟩, ⟨fun h0 => ?_, fun hn => absurd hcc hn⟩⟩
    · rw [e5] at h0
      exact absurd h0 (by decide)
    · rw [e6] at h0
      exact absurd h0 (by decide)
  · have e5 : (rc5_setup cfg w r b key S0).1 = 0 := by
      unfold rc5_setup setupRes
      rw [if_neg hc]
    have e6 : (rc6_setup cfg w r b key S0).1 = 0 := by
      unfold rc6_setup setupRes
      rw [if_neg hc]
    have hcc : ¬(w ≠ (cfg.wsz : Int) ∨ b < 0 ∨ b > 255 ∨ r < 0 ∨ r > 255 ∨ r % 4 ≠ 0) :=
      fun h => hc ((setup_cond_iff cfg w r b).mpr h)
    refine ⟨⟨fun h5 => ?_, fun hcnd => absurd hcnd hcc⟩, ⟨fun _ => hcc, fun _ => e5⟩,
      ⟨fun h5 => ?_, fun hcnd => absurd hcnd hcc⟩, ⟨fun _ => hcc, fun _ => e6⟩⟩
    · rw [e5] at h5
      exact absurd h5 (by decide)
    · rw [e6] at h5
      exact absurd h5 (by decide)

/-- C3: whenever rc5_setup or rc6_setup fails with the
unsupported-parameters condition, every word of the caller-supplied table
is left unchanged. -/
theorem setup_fail_no_mutation (cfg : Cfg) (w r b : Int) (key : Nat → Nat)
    (S0 : Nat → Nat) :
    ((rc5_setup cfg w r b key S0).1 = -1 → ∀ i, (rc5_setup cfg w r b key S0).2 i = S0 i) ∧
    ((rc6_setup cfg w r b key S0).1 = -1 → ∀ i, (rc6_setup cfg w r b key S0).2 i = S0 i) := by
  by_cases hc : (cfg.wsz : Int) ≠ w ∨ b < 0 ∨ b > 255 ∨ r < 0 ∨ r > 255 ∨ Int.tmod r 4 ≠ 0
  · constructor
    · intro _ i
      unfold rc5_setup setupRes
      rw [if_pos hc]
    · intro _ i
      unfold rc6_setup setupRes
      rw [if_pos hc]
  · constructor
    · intro h
      exfalso
      unfold rc5_setup setupRes at h
      rw [if_neg hc] at h
      exact absurd (show (0 : Int) = -1 from h) (by decide)
    · intro h
      exfalso
      unfold rc6_setup setupRes at h
      rw [if_neg hc] at h
      exact absurd (show (0 : Int) = -1 from h) (by decide)

/-- Witness for C3 at an invalid word width (w = 7 against the 8-bit
configuration). -/
theorem setup_fail_no_mutation_witness :
    (rc5_setup params8 7 4 1 (fun _ => 0) (fun i => i + 100)).1 = -1 ∧
    (rc5_setup params8 7 4 1 (fun _ => 0) (fun i => i + 100)).2 5 = 105 ∧
    (rc6_setup params8 7 4 1 (fun _ => 0) (fun i => i + 100)).1 = -1 ∧
    (rc6_setup params8 7 4 1 (fun _ => 0) (fun i => i + 100)).2 5 = 105 :=
  ⟨by decide,
    (setup_fail_no_mutation params8 7 4 1 (fun _ => 0) (fun i => i + 100)).1 (by decide) 5,
    by decide,
    (setup_fail_no_mutation params8 7 4 1 (fun _ => 0) (fun i => i + 100)).2 (by decide) 5⟩

/-- C8: with r = 0, rc6_encrypt produces exactly
(p0 + S[2], p1 + S[0], p2 + S[3], p3 + S[1]): positions 1 and 3 receive only
the two initial whitening additions, positions 0 and 2 only the two closing
additions. -/
theorem rc6_encrypt_zero_rounds (cfg : Cfg) (S : Nat → Nat) (pt : Blk4) :
    rc6_encrypt cfg S 0 pt =
      ⟨wadd cfg pt.a (S 2), wadd cfg pt.b (S 0), wadd cfg pt.c (S 3), wadd cfg pt.d (S 1)⟩ :=
  rfl

/-! Specification-side formulations of the encryption loops: a flat loop of
r rounds, as the specification words it, with no grouping by four. -/

/-- One RC5 encryption round exactly as the specification states it:
A = rotateLeft(A xor B, B mod W) + S[2 round + 2] then
B = rotateLeft(B xor A, A mod W) + S[2 round + 3]. -/
def specRC5Round (cfg : Cfg) (S : Nat → Nat) (round : Nat) (st : Nat × Nat) : Nat × Nat :=
  let a := wadd cfg (rotl cfg (wxor st.1 st.2) (st.2 % cfg.wsz)) (S (2 * round + 2))
  let b := wadd cfg (rotl cfg (wxor st.2 a) (a % cfg.wsz)) (S (2 * round + 3))
  (a, b)

/-- A flat sequence of n RC5 rounds beginning at round index round. -/
def specRC5Rounds (cfg : Cfg) (S : Nat → Nat) : Nat → Nat → Nat × Nat → Nat × Nat
  | _, 0, st => st
  | round, n + 1, st => specRC5Rounds cfg S (round + 1) n (specRC5Round cfg S round st)

/-- RC5 encryption as the specification states it: the two whitening
additions followed by r sequential rounds. -/
def specRC5Encrypt (cfg : Cfg) (S : Nat → Nat) (r : Nat) (pt : Nat × Nat) : Nat × Nat :=
  specRC5Rounds cfg S 0 r (wadd cfg pt.1 (S 0), wadd cfg pt.2 (S 1))

/-- One RC6 encryption round exactly as the specification states it, with
the quadratic function t = f(B), u = f(D), the two add-rotate-xor steps, and
the cyclic register rotation (A,B,C,D) to (B,C,D,A). -/
def specRC6Round (cfg : Cfg) (S : Nat → Nat) (round : Nat) (st : Blk4) : Blk4 :=
  let t := rotl cfg ((st.b * (2 * st.b + 1)) % cfg.M) cfg.lgw
  let u := rotl cfg ((st.d * (2 * st.d + 1)) % cfg.M) cfg.lgw
  let a2 := wadd cfg (rotl cfg (wxor st.a t) (u % cfg.wsz)) (S (2 * round + 2))
  let c2 := wadd cfg (rotl cfg (wxor st.c u) (t % cfg.wsz)) (S (2 * round + 3))
  ⟨st.b, c2, st.d, a2⟩

/-- A flat sequence of n RC6 rounds beginning at round index round. -/
def specRC6Rounds (cfg : Cfg) (S : Nat → Nat) : Nat → Nat → Blk4 → Blk4
  | _, 0, st => st
  | round, n + 1, st => specRC6Rounds cfg S (round + 1) n (specRC6Round cfg S round st)

/-- RC6 encryption as the specification states it: B = p1 + S[0],
D = p3 + S[1], A = p0, C = p2, r sequential rounds, then the closing
additions A = A + S[2r+2] and C = C + S[2r+3]. -/
def specRC6Encrypt (cfg : Cfg) (S : Nat → Nat) (r : Nat) (pt : Blk4) : Blk4 :=
  ⟨wadd cfg (specRC6Rounds cfg S 0 r
      ⟨pt.a, wadd cfg pt.b (S 0), pt.c, wadd cfg pt.d (S 1)⟩).a (S (2 * r + 2)),
   (specRC6Rounds cfg S 0 r ⟨pt.a, wadd cfg pt.b (S 0), pt.c, wadd cfg pt.d (S 1)⟩).b,
   wadd cfg (specRC6Rounds cfg S 0 r
      ⟨pt.a, wadd cfg pt.b (S 0), pt.c, wadd cfg pt.d (S 1)⟩).c (S (2 * r + 3)),
   (specRC6Rounds cfg S 0 r ⟨pt.a, wadd cfg pt.b (S 0), pt.c, wadd cfg pt.d (S 1)⟩).d⟩

theorem specRC5Rounds_eq_rc5EncFrom (cfg : Cfg) (S : Nat → Nat) :
    ∀ n i st, specRC5Rounds cfg S i n st = rc5EncFrom cfg S i n st := by
  intro n
  induction n with
  | zero => intro i st; rfl
  | succ n ih =>
    intro i st
    show specRC5Rounds cfg S (i + 1) n (specRC5Round cfg S i st) =
      rc5EncFrom cfg S (i + 1) n (rc5EncRound cfg S i st)
    rw [show specRC5Round cfg S i st = rc5EncRound cfg S i st from rfl]
    exact ih (i + 1) (rc5EncRound cfg S i st)

theorem specRC6Rounds_eq_rc6EncFrom (cfg : Cfg) (S : Nat → Nat) :
    ∀ n i st, specRC6Rounds cfg S i n st = rc6EncFrom cfg S i n st := by
  intro n
  induction n with
  | zero => intro i st; rfl
  | succ n ih =>
    intro i st
    show specRC6Rounds cfg S (i + 1) n (specRC6Round cfg S i st) =
      rc6EncFrom cfg S (i + 1) n (rc6EncRound cfg S i st)
    rw [show specRC6Round cfg S i st = rc6EncRound cfg S i st from rfl]
    exact ih (i + 1) (rc6EncRound cfg S i st)

/-- C6: for every table and two-word plaintext, rc5_encrypt computes the
two whitening additions and then exactly r rounds of the stated round
function with subkeys in increasing index order; with r = 0 the ciphertext
is exactly (p0 + S[0], p1 + S[1]). -/
theorem rc5_encrypt_spec (cfg : Cfg) (S : Nat → Nat) (r : Nat) (hr : r % 4 = 0)
    (pt : Nat × Nat) :
    rc5_encrypt cfg S r pt = specRC5Encrypt cfg S r pt ∧
    rc5_encrypt cfg S 0 pt = (wadd cfg pt.1 (S 0), wadd cfg pt.2 (S 1)) := by
  constructor
  · have hr4 : 4 * (r / 4) = r := by omega
    unfold rc5_encrypt specRC5Encrypt
    rw [rc5EncOuter_eq, hr4, specRC5Rounds_eq_rc5EncFrom]
  · rfl

/-- Witness for C6 at the 8-bit configuration with r = 4. -/
theorem rc5_encrypt_spec_witness :
    (4 : Nat) % 4 = 0 ∧
    rc5_encrypt params8 (fun i => 3 * i + 1) 4 (9, 77) =
      specRC5Encrypt params8 (fun i => 3 * i + 1) 4 (9, 77) ∧
    rc5_encrypt params8 (fun i => 3 * i + 1) 0 (9, 77) =
      (wadd params8 9 ((fun i : Nat => 3 * i + 1) 0),
       wadd params8 77 ((fun i : Nat => 3 * i + 1) 1)) :=
  ⟨by decide,
    (rc5_encrypt_spec params8 (fun i => 3 * i + 1) 4 (by decide) (9, 77)).1,
    (rc5_encrypt_spec params8 (fun i => 3 * i + 1) 4 (by decide) (9, 77)).2⟩

/-- C7: for every table and four-word plaintext, rc6_encrypt computes
B = p1 + S[0], D = p3 + S[1], A = p0, C = p2, then exactly r rounds of the
stated round function with the cyclic register rotation, then the closing
additions A = A + S[2r+2] and C = C + S[2r+3]. -/
theorem rc6_encrypt_spec (cfg : Cfg) (S : Nat → Nat) (r : Nat) (hr : r % 4 = 0)
    (pt : Blk4) :
    rc6_encrypt cfg S r pt = specRC6Encrypt cfg S r pt := by
  have hr4 : 4 * (r / 4) = r := by omega
  unfold rc6_encrypt specRC6Encrypt
  rw [rc6EncOuter_eq, hr4, specRC6Rounds_eq_rc6EncFrom]

/-- Witness for C7 at the 8-bit configuration with r = 4. -/
theorem rc6_encrypt_spec_witness :
    (4 : Nat) % 4 = 0 ∧
    rc6_encrypt params8 (fun i => 5 * i + 2) 4 ⟨9, 77, 130, 244⟩ =
      specRC6Encrypt params8 (fun i => 5 * i + 2) 4 ⟨9, 77, 130, 244⟩ :=
  ⟨by decide, rc6_encrypt_spec params8 (fun i => 5 * i + 2) 4 (by decide) ⟨9, 77, 130, 244⟩⟩

/-! Specification-side formulation of the key schedule: the cursors are
computed from the iteration counter, instead of being carried and reset as
in the code. -/

/-- State of the specification-side mixing pass: the accumulators and the
two arrays, without carried cursors. -/
structure MixSt2 where
  A : Nat
  B : Nat
  S : Nat → Nat
  L : Nat → Nat

/-- Iteration number k of the mixing pass as the specification states it,
with cursors i = k mod S_words and j = k mod L_words. -/
def specMixStep (cfg : Cfg) (sw lw k : Nat) (st : MixSt2) : MixSt2 :=
  let i := k % sw
  let j := k % lw
  let a := rotl cfg ((st.S i + st.A + st.B) % cfg.M) 3
  let s2 : Nat → Nat := fun m => if m = i then a else st.S m
  let bv := rotl cfg ((st.L j + a + st.B) % cfg.M) (((a + st.B) % cfg.M) % cfg.wsz)
  let l2 : Nat → Nat := fun m => if m = j then bv else st.L m
  ⟨a, bv, s2, l2⟩

/-- Iterations k, k+1, ..., k+n-1 of the specification-side mixing pass. -/
def specMixFrom (cfg : Cfg) (sw lw : Nat) : Nat → Nat → MixSt2 → MixSt2
  | _, 0, st => st
  | k, n + 1, st => specMixFrom cfg sw lw (k + 1) n (specMixStep cfg sw lw k st)

/-- The key schedule as the specification states it: fill the first sw
table words with the P and Q constants, then run 3 * max(L_words, S_words)
mixing iterations starting from A = B = 0. -/
def specKeySchedule (cfg : Cfg) (sw b : Nat) (key : Nat → Nat) (S0 : Nat → Nat) : Nat → Nat :=
  (specMixFrom cfg sw (lWords cfg b) 0 (3 * max (lWords cfg b) sw)
    ⟨0, 0, fun i => if i < sw then sFill cfg i else S0 i, packWord cfg b key⟩).S

/-- The cursor-free projection of a mixing state. -/
def projMix (st : MixSt) : MixSt2 := ⟨st.A, st.B, st.S, st.L⟩

/-- Advancing a carried cursor agrees with the counter-derived cursor. -/
theorem cursor_wrap (n m c : Nat) (hn : 0 < n)
    (hw : (if c = n then 0 else c) = m % n) :
    (if (if c = n then 0 else c) + 1 = n then 0
      else (if c = n then 0 else c) + 1) = (m + 1) % n := by
  rw [hw]
  by_cases h1 : m % n + 1 = n
  · rw [if_pos h1, ← Nat.mod_add_mod, h1, Nat.mod_self]
  · have hlt : m % n < n := Nat.mod_lt _ hn
    rw [if_neg h1, ← Nat.mod_add_mod, Nat.mod_eq_of_lt (show m % n + 1 < n by omega)]

theorem cursor_le (n m c : Nat) (hn : 0 < n)
    (hw : (if c = n then 0 else c) = m % n) :
    (if c = n then 0 else c) + 1 ≤ n := by
  rw [hw]
  have := Nat.mod_lt m hn
  omega

/-- One code-side mixing step projects to the specification-side mixing
step when the carried cursors agree with the counter. -/
theorem mixStep_spec (cfg : Cfg) (sw lw k : Nat) (st : MixSt)
    (hwi : (if st.i = sw then 0 else st.i) = k % sw)
    (hwj : (if st.j = lw then 0 else st.j) = k % lw) :
    projMix (mixStep cfg sw lw st) = specMixStep cfg sw lw k (projMix st) := by
  simp only [mixStep, specMixStep, projMix, hwi, hwj]

/-- The code-side mixing loop projects to the specification-side mixing
loop. -/
theorem mixLoop_spec (cfg : Cfg) (sw lw : Nat) (hsw : 0 < sw) (hlw : 0 < lw) :
    ∀ n k (st : MixSt),
      (if st.i = sw then 0 else st.i) = k % sw →
      (if st.j = lw then 0 else st.j) = k % lw →
      projMix (mixLoop cfg sw lw n st) = specMixFrom cfg sw lw k n (projMix st) := by
  intro n
  induction n with
  | zero => intro k st _ _; rfl
  | succ n ih =>
    intro k st hwi hwj
    have hwi2 : (if (mixStep cfg sw lw st).i = sw then 0 else (mixStep cfg sw lw st).i) =
        (k + 1) % sw := by
      show (if (if st.i = sw then 0 else st.i) + 1 = sw then 0
        else (if st.i = sw then 0 else st.i) + 1) = (k + 1) % sw
      exact cursor_wrap sw k st.i hsw hwi
    have hwj2 : (if (mixStep cfg sw lw st).j = lw then 0 else (mixStep cfg sw lw st).j) =
        (k + 1) % lw := by
      show (if (if st.j = lw then 0 else st.j) + 1 = lw then 0
        else (if st.j = lw then 0 else st.j) + 1) = (k + 1) % lw
      exact cursor_wrap lw k st.j hlw hwj
    show projMix (mixLoop cfg sw lw n (mixStep cfg sw lw st)) =
      specMixFrom cfg sw lw (k + 1) n (specMixStep cfg sw lw k (projMix st))
    rw [← mixStep_spec cfg sw lw k st hwi hwj]
    exact ih (k + 1) (mixStep cfg sw lw st) hwi2 hwj2

theorem lWords_pos (cfg : Cfg) (b : Nat) : 0 < lWords cfg b :=
  Nat.lt_of_lt_of_le Nat.zero_lt_one (le_max_left 1 _)

/-- The successful branch of setup computes exactly the key schedule of the
specification, for any positive table size. -/
theorem setupGo_spec (cfg : Cfg) (sw b : Nat) (hsw : 0 < sw) (key : Nat → Nat)
    (S0 : Nat → Nat) :
    setupGo cfg sw b key S0 = specKeySchedule cfg sw b key S0 := by
  unfold setupGo setupCore specKeySchedule
  have hfill : (fun i => if i = 0 then sFill cfg 0 else if i < sw then sFill cfg i else S0 i) =
      (fun i => if i < sw then sFill cfg i else S0 i) := by
    funext i
    by_cases h0 : i = 0
    · subst h0
      rw [if_pos rfl, if_pos hsw]
    · rw [if_neg h0]
  rw [hfill]
  have h := mixLoop_spec cfg sw (lWords cfg b) hsw (lWords_pos cfg b)
    (3 * max (lWords cfg b) sw) 0
    ⟨0, 0, 0, 0, fun i => if i < sw then sFill cfg i else S0 i, packWord cfg b key⟩
    (by simp) (by simp)
  exact congrArg MixSt2.S h

/-- Validation passes for in-range parameters, and the table is the one
computed by the successful branch. -/
theorem rc5_setup_valid (cfg : Cfg) (r b : Nat) (hr255 : r ≤ 255) (hr4 : r % 4 = 0)
    (hb : b ≤ 255) (key : Nat → Nat) (S0 : Nat → Nat) :
    rc5_setup cfg cfg.wsz r b key S0 = (0, setupGo cfg (2 * r + 2) b key S0) := by
  unfold rc5_setup setupRes
  have hcond : ¬((cfg.wsz : Int) ≠ (cfg.wsz : Int) ∨ (b : Int) < 0 ∨ (b : Int) > 255 ∨
      (r : Int) < 0 ∨ (r : Int) > 255 ∨ Int.tmod (r : Int) 4 ≠ 0) := by
    rintro (h | h | h | h | h | h)
    · exact h rfl
    · omega
    · omega
    · omega
    · omega
    · exact h (by rw [show Int.tmod (r : Int) 4 = ((r % 4 : Nat) : Int) from rfl, hr4]; rfl)
  rw [if_neg hcond]
  simp

theorem rc6_setup_valid (cfg : Cfg) (r b : Nat) (hr255 : r ≤ 255) (hr4 : r % 4 = 0)
    (hb : b ≤ 255) (key : Nat → Nat) (S0 : Nat → Nat) :
    rc6_setup cfg cfg.wsz r b key S0 = (0, setupGo cfg (2 * r + 4) b key S0) := by
  unfold rc6_setup setupRes
  have hcond : ¬((cfg.wsz : Int) ≠ (cfg.wsz : Int) ∨ (b : Int) < 0 ∨ (b : Int) > 255 ∨
      (r : Int) < 0 ∨ (r : Int) > 255 ∨ Int.tmod (r : Int) 4 ≠ 0) := by
    rintro (h | h | h | h | h | h)
    · exact h rfl
    · omega
    · omega
    · omega
    · omega
    · exact h (by rw [show Int.tmod (r : Int) 4 = ((r % 4 : Nat) : Int) from rfl, hr4]; rfl)
  rw [if_neg hcond]
  simp

/-- C4: for every valid parameter set and key, setup populates the table by
the constant fill S[0] = P, S[i] = S[i-1] + Q followed by exactly
3 * max(L_words, S_words) mixing iterations with A = B = 0 and wrapping
cursors, the single routine serving RC5 with table size 2r+2 and RC6 with
table size 2r+4. -/
theorem setup_follows_spec (cfg : Cfg) (r b : Nat) (hr255 : r ≤ 255)
    (hr4 : r % 4 = 0) (hb : b ≤ 255) (key : Nat → Nat) (S0 S0' : Nat → Nat) :
    (rc5_setup cfg cfg.wsz r b key S0).2 = specKeySchedule cfg (2 * r + 2) b key S0 ∧
    (rc6_setup cfg cfg.wsz r b key S0').2 = specKeySchedule cfg (2 * r + 4) b key S0' := by
  constructor
  · rw [rc5_setup_valid cfg r b hr255 hr4 hb key S0]
    exact setupGo_spec cfg (2 * r + 2) b (by omega) key S0
  · rw [rc6_setup_valid cfg r b hr255 hr4 hb key S0']
    exact setupGo_spec cfg (2 * r + 4) b (by omega) key S0'

/-- Witness for C4 at the 8-bit configuration with r = 4 and a two-byte
key, checked at a sample table index. -/
theorem setup_follows_spec_witness :
    (4 : Nat) ≤ 255 ∧ (4 : Nat) % 4 = 0 ∧ (2 : Nat) ≤ 255 ∧
    (rc5_setup params8 params8.wsz 4 2 (fun i => 40 + i) (fun _ => 0)).2 =
      specKeySchedule params8 (2 * 4 + 2) 2 (fun i => 40 + i) (fun _ => 0) ∧
    (rc6_setup params8 params8.wsz 4 2 (fun i => 40 + i) (fun _ => 9)).2 =
      specKeySchedule params8 (2 * 4 + 4) 2 (fun i => 40 + i) (fun _ => 9) :=
  ⟨by decide, by decide, by decide,
    (setup_follows_spec params8 4 2 (by decide) (by decide) (by decide)
      (fun i => 40 + i) (fun _ => 0) (fun _ => 9)).1,
    (setup_follows_spec params8 4 2 (by decide) (by decide) (by decide)
      (fun i => 40 + i) (fun _ => 0) (fun _ => 9)).2⟩

/-! Byte-level characterization of the key material L. -/

theorem keyByte_lt (b : Nat) (key : Nat → Nat) (i : Nat) : keyByte b key i < 256 := by
  unfold keyByte
  split <;> omega

/-- Byte t of a packed run of key bytes is the key byte at offset t. -/
theorem byteListFrom_extract (b : Nat) (key : Nat → Nat) :
    ∀ n start t, t < n →
      wordOfBytesLE (byteListFrom b key start n) / 256 ^ t % 256 =
        keyByte b key (start + t) := by
  intro n
  induction n with
  | zero => intro start t ht; exact absurd ht (Nat.not_lt_zero t)
  | succ n ih =>
    intro start t ht
    cases t with
    | zero =>
      show (keyByte b key start % 256 +
          256 * wordOfBytesLE (byteListFrom b key (start + 1) n)) / 256 ^ 0 % 256 =
        keyByte b key (start + 0)
      rw [pow_zero, Nat.div_one, Nat.add_mul_mod_self_left,
        Nat.mod_eq_of_lt (keyByte_lt b key start),
        Nat.mod_eq_of_lt (keyByte_lt b key start), Nat.add_zero]
    | succ t =>
      show (keyByte b key start % 256 +
          256 * wordOfBytesLE (byteListFrom b key (start + 1) n)) / 256 ^ (t + 1) % 256 =
        keyByte b key (start + (t + 1))
      rw [pow_succ', ← Nat.div_div_eq_div_mul,
        Nat.add_mul_div_left _ _ (show 0 < 256 by norm_num),
        Nat.div_eq_of_lt (Nat.mod_lt _ (show 0 < 256 by norm_num)), Nat.zero_add,
        ih (start + 1) t (by omega), show start + 1 + t = start + (t + 1) from by omega]

/-- Byte t of key word j is key byte j * wordBytes + t, or padding zero. -/
theorem packWord_extract (cfg : Cfg) (b : Nat) (key : Nat → Nat) (j t : Nat)
    (ht : t < wordBytes cfg) :
    packWord cfg b key j / 256 ^ t % 256 = keyByte b key (j * wordBytes cfg + t) :=
  byteListFrom_extract b key (wordBytes cfg) (j * wordBytes cfg) t ht

theorem wordOfBytesLE_byteListFrom_zero (key : Nat → Nat) :
    ∀ n start, wordOfBytesLE (byteListFrom 0 key start n) = 0 := by
  intro n
  induction n with
  | zero => intro start; rfl
  | succ n ih =>
    intro start
    show keyByte 0 key start % 256 +
      256 * wordOfBytesLE (byteListFrom 0 key (start + 1) n) = 0
    rw [ih (start + 1)]
    unfold keyByte
    rw [if_neg (by omega)]

theorem packWord_zero (cfg : Cfg) (key : Nat → Nat) (j : Nat) :
    packWord cfg 0 key j = 0 :=
  wordOfBytesLE_byteListFrom_zero key (wordBytes cfg) (j * wordBytes cfg)

theorem setupGo_zero_key (cfg : Cfg) (sw : Nat) (key key' : Nat → Nat)
    (S0 : Nat → Nat) : setupGo cfg sw 0 key S0 = setupGo cfg sw 0 key' S0 := by
  unfold setupGo
  have h : packWord cfg 0 key = packWord cfg 0 key' := by
    funext j
    rw [packWord_zero, packWord_zero]
  rw [h]

/-- An empty key gives the same table whatever the key bytes are, for both
variants, whether or not the parameters validate. -/
theorem setup_zero_key_indep (cfg : Cfg) (w r : Int) (key key' : Nat → Nat)
    (S0 : Nat → Nat) :
    rc5_setup cfg w r 0 key S0 = rc5_setup cfg w r 0 key' S0 ∧
    rc6_setup cfg w r 0 key S0 = rc6_setup cfg w r 0 key' S0 := by
  constructor
  · unfold rc5_setup setupRes
    by_cases hc : (cfg.wsz : Int) ≠ w ∨ (0 : Int) < 0 ∨ (0 : Int) > 255 ∨ r < 0 ∨
        r > 255 ∨ Int.tmod r 4 ≠ 0
    · rw [if_pos hc, if_pos hc]
    · rw [if_neg hc, if_neg hc]
      congr 1
      show setupGo cfg (2 * r.toNat + 2) 0 key S0 = setupGo cfg (2 * r.toNat + 2) 0 key' S0
      exact setupGo_zero_key cfg (2 * r.toNat + 2) key key' S0
  · unfold rc6_setup setupRes
    by_cases hc : (cfg.wsz : Int) ≠ w ∨ (0 : Int) < 0 ∨ (0 : Int) > 255 ∨ r < 0 ∨
        r > 255 ∨ Int.tmod r 4 ≠ 0
    · rw [if_pos hc, if_pos hc]
    · rw [if_neg hc, if_neg hc]
      congr 1
      show setupGo cfg (2 * r.toNat + 4) 0 key S0 = setupGo cfg (2 * r.toNat + 4) 0 key' S0
      exact setupGo_zero_key cfg (2 * r.toNat + 4) key key' S0

/-- L_words words are enough to hold the b key bytes. -/
theorem lWords_covers (cfg : Cfg) (hwb : 0 < wordBytes cfg) (b : Nat) :
    b ≤ lWords cfg b * wordBytes cfg := by
  unfold lWords
  rcases Nat.eq_zero_or_pos b with hb | hb
  · subst hb
    exact Nat.zero_le _
  · have h := Nat.div_add_mod (b + wordBytes cfg - 1) (wordBytes cfg)
    have hm : (b + wordBytes cfg - 1) % wordBytes cfg < wordBytes cfg := Nat.mod_lt _ hwb
    have h1 : b ≤ ((b + wordBytes cfg - 1) / wordBytes cfg) * wordBytes cfg := by
      rw [Nat.mul_comm]
      omega
    calc b ≤ ((b + wordBytes cfg - 1) / wordBytes cfg) * wordBytes cfg := h1
      _ ≤ (max 1 ((b + wordBytes cfg - 1) / wordBytes cfg)) * wordBytes cfg :=
        Nat.mul_le_mul_right _ (le_max_right 1 _)

/-- C5: during setup the key material L has exactly
max(1, ceil(b / wordBytes)) words, packed least-significant-byte-first from
the b key bytes with the unfilled bytes of the last word zero; with b = 0
the single key word is zero and the setup result does not depend on the key
bytes. -/
theorem key_material (cfg : Cfg) (hwb : 0 < wordBytes cfg) (b : Nat) (key : Nat → Nat) :
    lWords cfg b = max 1 ((b + wordBytes cfg - 1) / wordBytes cfg) ∧
    b ≤ lWords cfg b * wordBytes cfg ∧
    (∀ j t, t < wordBytes cfg →
      packWord cfg b key j / 256 ^ t % 256 = keyByte b key (j * wordBytes cfg + t)) ∧
    lWords cfg 0 = 1 ∧
    (∀ k : Nat → Nat, ∀ j, packWord cfg 0 k j = 0) ∧
    (∀ w r : Int, ∀ k k' : Nat → Nat, ∀ S0 : Nat → Nat,
      rc5_setup cfg w r 0 k S0 = rc5_setup cfg w r 0 k' S0 ∧
      rc6_setup cfg w r 0 k S0 = rc6_setup cfg w r 0 k' S0) := by
  refine ⟨rfl, lWords_covers cfg hwb b, packWord_extract cfg b key, ?_,
    fun k j => packWord_zero cfg k j,
    fun w r k k' S0 => setup_zero_key_indep cfg w r k k' S0⟩
  show max 1 ((0 + wordBytes cfg - 1) / wordBytes cfg) = 1
  rw [Nat.zero_add, Nat.div_eq_of_lt (by omega)]
  omega

/-- Witness for C5 at the 16-bit configuration: a three-byte key checked at
byte offset 1 of word 0, and key-independence of setup for b = 0 at the
8-bit configuration. -/
theorem key_material_witness :
    0 < wordBytes params16 ∧ (1 : Nat) < wordBytes params16 ∧
    packWord params16 3 (fun i => 17 + i) 0 / 256 ^ 1 % 256 =
      keyByte 3 (fun i => 17 + i) (0 * wordBytes params16 + 1) ∧
    rc5_setup params8 8 4 0 (fun _ => 3) (fun _ => 0) =
      rc5_setup params8 8 4 0 (fun _ => 9) (fun _ => 0) :=
  ⟨by decide, by decide,
    (key_material params16 (by decide) 3 (fun i => 17 + i)).2.2.1 0 1 (by decide),
    ((key_material params8 (by decide) 0 (fun _ => 0)).2.2.2.2.2 8 4
      (fun _ => 3) (fun _ => 9) (fun _ => 0)).1⟩

/-! Endianness: byte-level embeddings of the cipher on a little-endian and
on a big-endian host.  On either host a word travels through memory as
bytes; the host reads and writes words in its own byte order, and
bswap_if_be swaps exactly on the big-endian host. -/

theorem bytesOfWordLE_length : ∀ n x, (bytesOfWordLE n x).length = n := by
  intro n
  induction n with
  | zero => intro x; rfl
  | succ n ih =>
    intro x
    show (bytesOfWordLE n (x / 256)).length + 1 = n + 1
    rw [ih]

theorem bytesOfWordLE_map_mod : ∀ n x,
    (bytesOfWordLE n x).map (fun y => y % 256) = bytesOfWordLE n x := by
  intro n
  induction n with
  | zero => intro x; rfl
  | succ n ih =>
    intro x
    show (x % 256 % 256) :: (bytesOfWordLE n (x / 256)).map (fun y => y % 256) =
      x % 256 :: bytesOfWordLE n (x / 256)
    rw [ih]
    congr 1
    omega

theorem wordOfBytesLE_map_mod : ∀ l : List Nat,
    wordOfBytesLE (l.map (fun y => y % 256)) = wordOfBytesLE l := by
  intro l
  induction l with
  | nil => rfl
  | cons a l ih =>
    show a % 256 % 256 + 256 * wordOfBytesLE (l.map (fun y => y % 256)) =
      a % 256 + 256 * wordOfBytesLE l
    rw [ih]
    congr 1
    omega

/-- Reading back the bytes of a little-endian packed word recovers the
bytes. -/
theorem bytesOfWordLE_wordOfBytesLE (n : Nat) (l : List Nat) (hl : l.length = n) :
    bytesOfWordLE n (wordOfBytesLE l) = l.map (fun y => y % 256) := by
  subst hl
  induction l with
  | nil => rfl
  | cons a l ih =>
    show (a % 256 + 256 * wordOfBytesLE l) % 256 ::
        bytesOfWordLE l.length ((a % 256 + 256 * wordOfBytesLE l) / 256) =
      a % 256 :: l.map (fun y => y % 256)
    rw [Nat.add_mul_mod_self_left, Nat.add_mul_div_left _ _ (show 0 < 256 by norm_num),
      Nat.div_eq_of_lt (Nat.mod_lt _ (show 0 < 256 by norm_num)), Nat.zero_add, ih]
    congr 1
    omega

/-- The value of a word read from memory bytes by the host: a big-endian
host reads the most significant byte first. -/
def hostWordOfBytes (be : Bool) (l : List Nat) : Nat :=
  if be then wordOfBytesLE l.reverse else wordOfBytesLE l

/-- The memory bytes a host writes for a word value. -/
def hostBytesOfWord (cfg : Cfg) (be : Bool) (x : Nat) : List Nat :=
  if be then (bytesOfWordLE (wordBytes cfg) x).reverse
  else bytesOfWordLE (wordBytes cfg) x

/-- A word on ingress: the host reads it from memory, then bswap_if_be
normalizes it. -/
def hostIngress (cfg : Cfg) (be : Bool) (l : List Nat) : Nat :=
  bswapIfBE cfg be (hostWordOfBytes be l)

/-- A word on egress: bswap_if_be denormalizes it, then the host writes it
to memory. -/
def hostEgress (cfg : Cfg) (be : Bool) (x : Nat) : List Nat :=
  hostBytesOfWord cfg be (bswapIfBE cfg be x)

/-- On both hosts, ingress of a word-sized byte run produces the
little-endian value of the bytes. -/
theorem hostIngress_eq (cfg : Cfg) (be : Bool) (l : List Nat)
    (hl : l.length = wordBytes cfg) :
    hostIngress cfg be l = wordOfBytesLE l := by
  cases be
  · rfl
  · show bswap cfg (wordOfBytesLE l.reverse) = wordOfBytesLE l
    unfold bswap
    rw [bytesOfWordLE_wordOfBytesLE (wordBytes cfg) l.reverse
        (by rw [List.length_reverse, hl]),
      List.map_reverse, List.reverse_reverse]
    exact wordOfBytesLE_map_mod l

/-- On both hosts, egress of a word produces its little-endian bytes. -/
theorem hostEgress_eq (cfg : Cfg) (be : Bool) (x : Nat) :
    hostEgress cfg be x = bytesOfWordLE (wordBytes cfg) x := by
  cases be
  · rfl
  · show (bytesOfWordLE (wordBytes cfg) (bswap cfg x)).reverse =
      bytesOfWordLE (wordBytes cfg) x
    unfold bswap
    rw [bytesOfWordLE_wordOfBytesLE (wordBytes cfg)
        (bytesOfWordLE (wordBytes cfg) x).reverse
        (by rw [List.length_reverse, bytesOfWordLE_length]),
      List.map_reverse, List.reverse_reverse, bytesOfWordLE_map_mod]

/-- Key word j as setup computes it on the given host: the word is read
from the byte-copied L array in host order and then bswap_if_be
normalized. -/
def hostPackWord (cfg : Cfg) (be : Bool) (b : Nat) (key : Nat → Nat) (j : Nat) : Nat :=
  bswapIfBE cfg be (hostWordOfBytes be (keyWordBytes cfg b key j))

theorem keyWordBytes_length (cfg : Cfg) (b : Nat) (key : Nat → Nat) (j : Nat) :
    (keyWordBytes cfg b key j).length = wordBytes cfg := by
  unfold keyWordBytes
  generalize j * wordBytes cfg = s
  generalize wordBytes cfg = n
  induction n generalizing s with
  | zero => rfl
  | succ n ih =>
    show (byteListFrom b key (s + 1) n).length + 1 = n + 1
    rw [ih]

theorem hostPackWord_eq (cfg : Cfg) (be : Bool) (b : Nat) (key : Nat → Nat) (j : Nat) :
    hostPackWord cfg be b key j = packWord cfg b key j :=
  hostIngress_eq cfg be (keyWordBytes cfg b key j) (keyWordBytes_length cfg b key j)

/-- setup on the given host. -/
def hostSetupGo (cfg : Cfg) (be : Bool) (sw b : Nat) (key : Nat → Nat)
    (S0 : Nat → Nat) : Nat → Nat :=
  setupCore cfg sw (lWords cfg b) (hostPackWord cfg be b key) S0

theorem hostSetupGo_eq (cfg : Cfg) (be : Bool) (sw b : Nat) (key : Nat → Nat)
    (S0 : Nat → Nat) : hostSetupGo cfg be sw b key S0 = setupGo cfg sw b key S0 := by
  unfold hostSetupGo setupGo
  rw [show hostPackWord cfg be b key = packWord cfg b key from
    funext (hostPackWord_eq cfg be b key)]

/-- The n memory bytes of a block beginning at byte address start. -/
def bytesAt (bs : Nat → Nat) : Nat → Nat → List Nat
  | _, 0 => []
  | start, n + 1 => bs start :: bytesAt bs (start + 1) n

theorem bytesAt_length (bs : Nat → Nat) : ∀ n start, (bytesAt bs start n).length = n := by
  intro n
  induction n with
  | zero => intro start; rfl
  | succ n ih =>
    intro start
    show (bytesAt bs (start + 1) n).length + 1 = n + 1
    rw [ih start.succ]

theorem hostIngress_bytesAt (cfg : Cfg) (be : Bool) (bs : Nat → Nat) (s : Nat) :
    hostIngress cfg be (bytesAt bs s (wordBytes cfg)) =
      wordOfBytesLE (bytesAt bs s (wordBytes cfg)) :=
  hostIngress_eq cfg be _ (bytesAt_length bs (wordBytes cfg) s)

/-- The full RC5 byte pipeline on the given host: setup from the key bytes,
ingress of the two plaintext words, encryption, egress of the two
ciphertext words. -/
def rc5EncryptBytes (cfg : Cfg) (be : Bool) (r b : Nat) (key bs : Nat → Nat) : List Nat :=
  hostEgress cfg be (rc5_encrypt cfg (hostSetupGo cfg be (2 * r + 2) b key (fun _ => 0)) r
    (hostIngress cfg be (bytesAt bs 0 (wordBytes cfg)),
     hostIngress cfg be (bytesAt bs (wordBytes cfg) (wordBytes cfg)))).1 ++
  hostEgress cfg be (rc5_encrypt cfg (hostSetupGo cfg be (2 * r + 2) b key (fun _ => 0)) r
    (hostIngress cfg be (bytesAt bs 0 (wordBytes cfg)),
     hostIngress cfg be (bytesAt bs (wordBytes cfg) (wordBytes cfg)))).2

/-- The full RC6 byte pipeline on the given host. -/
def rc6EncryptBytes (cfg : Cfg) (be : Bool) (r b : Nat) (key bs : Nat → Nat) : List Nat :=
  hostEgress cfg be (rc6_encrypt cfg (hostSetupGo cfg be (2 * r + 4) b key (fun _ => 0)) r
    ⟨hostIngress cfg be (bytesAt bs 0 (wordBytes cfg)),
     hostIngress cfg be (bytesAt bs (wordBytes cfg) (wordBytes cfg)),
     hostIngress cfg be (bytesAt bs (2 * wordBytes cfg) (wordBytes cfg)),
     hostIngress cfg be (bytesAt bs (3 * wordBytes cfg) (wordBytes cfg))⟩).a ++
  hostEgress cfg be (rc6_encrypt cfg (hostSetupGo cfg be (2 * r + 4) b key (fun _ => 0)) r
    ⟨hostIngress cfg be (bytesAt bs 0 (wordBytes cfg)),
     hostIngress cfg be (bytesAt bs (wordBytes cfg) (wordBytes cfg)),
     hostIngress cfg be (bytesAt bs (2 * wordBytes cfg) (wordBytes cfg)),
     hostIngress cfg be (bytesAt bs (3 * wordBytes cfg) (wordBytes cfg))⟩).b ++
  hostEgress cfg be (rc6_encrypt cfg (hostSetupGo cfg be (2 * r + 4) b key (fun _ => 0)) r
    ⟨hostIngress cfg be (bytesAt bs 0 (wordBytes cfg)),
     hostIngress cfg be (bytesAt bs (wordBytes cfg) (wordBytes cfg)),
     hostIngress cfg be (bytesAt bs (2 * wordBytes cfg) (wordBytes cfg)),
     hostIngress cfg be (bytesAt bs (3 * wordBytes cfg) (wordBytes cfg))⟩).c ++
  hostEgress cfg be (rc6_encrypt cfg (hostSetupGo cfg be (2 * r + 4) b key (fun _ => 0)) r
    ⟨hostIngress cfg be (bytesAt bs 0 (wordBytes cfg)),
     hostIngress cfg be (bytesAt bs (wordBytes cfg) (wordBytes cfg)),
     hostIngress cfg be (bytesAt bs (2 * wordBytes cfg) (wordBytes cfg)),
     hostIngress cfg be (bytesAt bs (3 * wordBytes cfg) (wordBytes cfg))⟩).d

/-- C9: for every valid parameter set, key bytes and block bytes, the
big-endian-host embedding and the little-endian-host embedding of setup
followed by encryption produce the same ciphertext bytes. -/
theorem endianness_independence (cfg : Cfg) (r b : Nat) (hr255 : r ≤ 255)
    (hr4 : r % 4 = 0) (hb : b ≤ 255) (key bs : Nat → Nat) :
    rc5EncryptBytes cfg true r b key bs = rc5EncryptBytes cfg false r b key bs ∧
    rc6EncryptBytes cfg true r b key bs = rc6EncryptBytes cfg false r b key bs := by
  constructor
  · unfold rc5EncryptBytes
    simp only [hostIngress_bytesAt, hostSetupGo_eq, hostEgress_eq]
  · unfold rc6EncryptBytes
    simp only [hostIngress_bytesAt, hostSetupGo_eq, hostEgress_eq]

/-- Witness for C9 at the 16-bit configuration with r = 4 and a three-byte
key. -/
theorem endianness_independence_witness :
    (4 : Nat) ≤ 255 ∧ (4 : Nat) % 4 = 0 ∧ (3 : Nat) ≤ 255 ∧
    rc5EncryptBytes params16 true 4 3 (fun i => 2 * i + 1) (fun i => 9 * i + 4) =
      rc5EncryptBytes params16 false 4 3 (fun i => 2 * i + 1) (fun i => 9 * i + 4) ∧
    rc6EncryptBytes params16 true 4 3 (fun i => 2 * i + 1) (fun i => 9 * i + 4) =
      rc6EncryptBytes params16 false 4 3 (fun i => 2 * i + 1) (fun i => 9 * i + 4) :=
  ⟨by decide, by decide, by decide,
    (endianness_independence params16 4 3 (by decide) (by decide) (by decide)
      (fun i => 2 * i + 1) (fun i => 9 * i + 4)).1,
    (endianness_independence params16 4 3 (by decide) (by decide) (by decide)
      (fun i => 2 * i + 1) (fun i => 9 * i + 4)).2⟩

/-! Table access bounds: each routine depends only on the table indices the
documentation allows it to touch, and setup writes nothing beyond the table
size it is given. -/

theorem rc5EncRound_congr (cfg : Cfg) (S S' : Nat → Nat) (i : Nat) (st : Nat × Nat)
    (h2 : S (2 * i + 2) = S' (2 * i + 2)) (h3 : S (2 * i + 3) = S' (2 * i + 3)) :
    rc5EncRound cfg S i st = rc5EncRound cfg S' i st := by
  unfold rc5EncRound
  rw [h2, h3]

theorem rc5EncFrom_congr (cfg : Cfg) :
    ∀ n i (S S' : Nat → Nat), (∀ m, m < 2 * (i + n) + 2 → S m = S' m) →
      ∀ st, rc5EncFrom cfg S i n st = rc5EncFrom cfg S' i n st := by
  intro n
  induction n with
  | zero => intro i S S' _ st; rfl
  | succ n ih =>
    intro i S S' h st
    show rc5EncFrom cfg S (i + 1) n (rc5EncRound cfg S i st) =
      rc5EncFrom cfg S' (i + 1) n (rc5EncRound cfg S' i st)
    rw [rc5EncRound_congr cfg S S' i st (h _ (by omega)) (h _ (by omega))]
    exact ih (i + 1) S S' (fun m hm => h m (by omega)) _

theorem rc5DecRound_congr (cfg : Cfg) (S S' : Nat → Nat) (i : Nat) (st : Nat × Nat)
    (h2 : S (2 * i + 2) = S' (2 * i + 2)) (h3 : S (2 * i + 3) = S' (2 * i + 3)) :
    rc5DecRound cfg S i st = rc5DecRound cfg S' i st := by
  unfold rc5DecRound
  rw [h2, h3]

theorem rc5DecFrom_congr (cfg : Cfg) :
    ∀ n i (S S' : Nat → Nat), (∀ m, m < 2 * (i + n) + 2 → S m = S' m) →
      ∀ st, rc5DecFrom cfg S i n st = rc5DecFrom cfg S' i n st := by
  intro n
  induction n with
  | zero => intro i S S' _ st; rfl
  | succ n ih =>
    intro i S S' h st
    show rc5DecRound cfg S i (rc5DecFrom cfg S (i + 1) n st) =
      rc5DecRound cfg S' i (rc5DecFrom cfg S' (i + 1) n st)
    rw [ih (i + 1) S S' (fun m hm => h m (by omega)) st,
      rc5DecRound_congr cfg S S' i _ (h _ (by omega)) (h _ (by omega))]

theorem rc6EncRound_congr (cfg : Cfg) (S S' : Nat → Nat) (i : Nat) (st : Blk4)
    (h2 : S (2 * i + 2) = S' (2 * i + 2)) (h3 : S (2 * i + 3) = S' (2 * i + 3)) :
    rc6EncRound cfg S i st = rc6EncRound cfg S' i st := by
  unfold rc6EncRound
  rw [h2, h3]

theorem rc6EncFrom_congr (cfg : Cfg) :
    ∀ n i (S S' : Nat → Nat), (∀ m, m < 2 * (i + n) + 2 → S m = S' m) →
      ∀ st, rc6EncFrom cfg S i n st = rc6EncFrom cfg S' i n st := by
  intro n
  induction n with
  | zero => intro i S S' _ st; rfl
  | succ n ih =>
    intro i S S' h st
    show rc6EncFrom cfg S (i + 1) n (rc6EncRound cfg S i st) =
      rc6EncFrom cfg S' (i + 1) n (rc6EncRound cfg S' i st)
    rw [rc6EncRound_congr cfg S S' i st (h _ (by omega)) (h _ (by omega))]
    exact ih (i + 1) S S' (fun m hm => h m (by omega)) _

theorem rc6DecRound_congr (cfg : Cfg) (S S' : Nat → Nat) (i : Nat) (st : Blk4)
    (h2 : S (2 * i + 2) = S' (2 * i + 2)) (h3 : S (2 * i + 3) = S' (2 * i + 3)) :
    rc6DecRound cfg S i st = rc6DecRound cfg S' i st := by
  unfold rc6DecRound
  rw [h2, h3]

theorem rc6DecFrom_congr (cfg : Cfg) :
    ∀ n i (S S' : Nat → Nat), (∀ m, m < 2 * (i + n) + 2 → S m = S' m) →
      ∀ st, rc6DecFrom cfg S i n st = rc6DecFrom cfg S' i n st := by
  intro n
  induction n with
  | zero => intro i S S' _ st; rfl
  | succ n ih =>
    intro i S S' h st
    show rc6DecRound cfg S i (rc6DecFrom cfg S (i + 1) n st) =
      rc6DecRound cfg S' i (rc6DecFrom cfg S' (i + 1) n st)
    rw [ih (i + 1) S S' (fun m hm => h m (by omega)) st,
      rc6DecRound_congr cfg S S' i _ (h _ (by omega)) (h _ (by omega))]

/-- rc5_encrypt reads the table only below index 2r+2. -/
theorem rc5_encrypt_congr (cfg : Cfg) (r : Nat) (S S' : Nat → Nat)
    (h : ∀ m, m < 2 * r + 2 → S m = S' m) (pt : Nat × Nat) :
    rc5_encrypt cfg S r pt = rc5_encrypt cfg S' r pt := by
  unfold rc5_encrypt
  rw [rc5EncOuter_eq, rc5EncOuter_eq, h 0 (by omega), h 1 (by omega)]
  exact rc5EncFrom_congr cfg (4 * (r / 4)) 0 S S' (fun m hm => h m (by omega)) _

/-- rc5_decrypt reads the table only below index 2r+2. -/
theorem rc5_decrypt_congr (cfg : Cfg) (r : Nat) (S S' : Nat → Nat)
    (h : ∀ m, m < 2 * r + 2 → S m = S' m) (ct : Nat × Nat) :
    rc5_decrypt cfg S r ct = rc5_decrypt cfg S' r ct := by
  unfold rc5_decrypt
  rw [rc5DecOuter_eq cfg S (r / 4) r _ (by omega),
    rc5DecOuter_eq cfg S' (r / 4) r _ (by omega),
    rc5DecFrom_congr cfg (4 * (r / 4)) (r - 4 * (r / 4)) S S'
      (fun m hm => h m (by omega)) ct,
    h (2 * (r - 4 * (r / 4))) (by omega), h (2 * (r - 4 * (r / 4)) + 1) (by omega)]

/-- rc6_encrypt reads the table only below index 2r+4. -/
theorem rc6_encrypt_congr (cfg : Cfg) (r : Nat) (S S' : Nat → Nat)
    (h : ∀ m, m < 2 * r + 4 → S m = S' m) (pt : Blk4) :
    rc6_encrypt cfg S r pt = rc6_encrypt cfg S' r pt := by
  unfold rc6_encrypt
  rw [rc6EncOuter_eq, rc6EncOuter_eq, h 0 (by omega), h 1 (by omega),
    rc6EncFrom_congr cfg (4 * (r / 4)) 0 S S' (fun m hm => h m (by omega)) _,
    h (2 * (4 * (r / 4)) + 2) (by omega), h (2 * (4 * (r / 4)) + 3) (by omega)]

/-- rc6_decrypt reads the table only below index 2r+4. -/
theorem rc6_decrypt_congr (cfg : Cfg) (r : Nat) (S S' : Nat → Nat)
    (h : ∀ m, m < 2 * r + 4 → S m = S' m) (ct : Blk4) :
    rc6_decrypt cfg S r ct = rc6_decrypt cfg S' r ct := by
  unfold rc6_decrypt
  rw [rc6DecOuter_eq cfg S (r / 4) r _ (by omega),
    rc6DecOuter_eq cfg S' (r / 4) r _ (by omega),
    h (2 * r + 2) (by omega), h (2 * r + 3) (by omega),
    rc6DecFrom_congr cfg (4 * (r / 4)) (r - 4 * (r / 4)) S S'
      (fun m hm => h m (by omega)) _,
    h (2 * (r - 4 * (r / 4))) (by omega), h (2 * (r - 4 * (r / 4)) + 1) (by omega)]

theorem mixStep_S_frame (cfg : Cfg) (sw lw : Nat) (st : MixSt) (m : Nat)
    (h : ¬ m = (if st.i = sw then 0 else st.i)) :
    (mixStep cfg sw lw st).S m = st.S m := by
  dsimp only [mixStep]
  rw [if_neg h]

/-- The mixing loop writes the table only below index sw. -/
theorem mixLoop_frame (cfg : Cfg) (sw lw : Nat) (hsw : 0 < sw) :
    ∀ n (st : MixSt), st.i ≤ sw → ∀ m, sw ≤ m →
      (mixLoop cfg sw lw n st).S m = st.S m := by
  intro n
  induction n with
  | zero => intro st _ m _; rfl
  | succ n ih =>
    intro st hi m hm
    have hwr : (if st.i = sw then 0 else st.i) < sw := by
      by_cases h : st.i = sw
      · rw [if_pos h]
        exact hsw
      · rw [if_neg h]
        omega
    have hi2 : (mixStep cfg sw lw st).i ≤ sw := by
      show (if st.i = sw then 0 else st.i) + 1 ≤ sw
      omega
    show (mixLoop cfg sw lw n (mixStep cfg sw lw st)).S m = st.S m
    rw [ih (mixStep cfg sw lw st) hi2 m hm,
      mixStep_S_frame cfg sw lw st m (by omega)]

/-- The successful branch of setup writes the table only below index sw. -/
theorem setupGo_frame (cfg : Cfg) (sw b : Nat) (key : Nat → Nat) (S0 : Nat → Nat)
    (hsw : 0 < sw) : ∀ m, sw ≤ m → setupGo cfg sw b key S0 m = S0 m := by
  intro m hm
  show (mixLoop cfg sw (lWords cfg b) (3 * max (lWords cfg b) sw)
    ⟨0, 0, 0, 0,
      fun i => if i = 0 then sFill cfg 0 else if i < sw then sFill cfg i else S0 i,
      packWord cfg b key⟩).S m = S0 m
  rw [mixLoop_frame cfg sw (lWords cfg b) hsw _ _ (Nat.zero_le sw) m hm]
  show (if m = 0 then sFill cfg 0 else if m < sw then sFill cfg m else S0 m) = S0 m
  rw [if_neg (by omega), if_neg (by omega)]

/-- rc5_setup writes the table only below index 2r+2, on success and on
failure alike. -/
theorem rc5_setup_frame (cfg : Cfg) (w r b : Int) (key : Nat → Nat) (S0 : Nat → Nat) :
    ∀ m, 2 * r.toNat + 2 ≤ m → (rc5_setup cfg w r b key S0).2 m = S0 m := by
  intro m hm
  unfold rc5_setup setupRes
  by_cases hc : (cfg.wsz : Int) ≠ w ∨ b < 0 ∨ b > 255 ∨ r < 0 ∨ r > 255 ∨
      Int.tmod r 4 ≠ 0
  · rw [if_pos hc]
  · rw [if_neg hc]
    exact setupGo_frame cfg (2 * r.toNat + 2) b.toNat key S0 (by omega) m hm

/-- rc6_setup writes the table only below index 2r+4, on success and on
failure alike. -/
theorem rc6_setup_frame (cfg : Cfg) (w r b : Int) (key : Nat → Nat) (S0 : Nat → Nat) :
    ∀ m, 2 * r.toNat + 4 ≤ m → (rc6_setup cfg w r b key S0).2 m = S0 m := by
  intro m hm
  unfold rc6_setup setupRes
  by_cases hc : (cfg.wsz : Int) ≠ w ∨ b < 0 ∨ b > 255 ∨ r < 0 ∨ r > 255 ∨
      Int.tmod r 4 ≠ 0
  · rw [if_pos hc]
  · rw [if_neg hc]
    exact setupGo_frame cfg (2 * r.toNat + 4) b.toNat key S0 (by omega) m hm

/-- C10: under the documented preconditions every table access stays in
bounds: setup writes only indices 0..S_words-1, and each encrypt and
decrypt routine depends only on the table words at indices 0..2r+1 (RC5)
or 0..2r+3 (RC6) it is documented to read. -/
theorem table_access_bounds (cfg : Cfg) :
    (∀ w r b : Int, ∀ key S0 : Nat → Nat, ∀ m, 2 * r.toNat + 2 ≤ m →
      (rc5_setup cfg w r b key S0).2 m = S0 m) ∧
    (∀ w r b : Int, ∀ key S0 : Nat → Nat, ∀ m, 2 * r.toNat + 4 ≤ m →
      (rc6_setup cfg w r b key S0).2 m = S0 m) ∧
    (∀ r : Nat, ∀ S S' : Nat → Nat, (∀ m, m < 2 * r + 2 → S m = S' m) →
      ∀ pt, rc5_encrypt cfg S r pt = rc5_encrypt cfg S' r pt) ∧
    (∀ r : Nat, ∀ S S' : Nat → Nat, (∀ m, m < 2 * r + 2 → S m = S' m) →
      ∀ ct, rc5_decrypt cfg S r ct = rc5_decrypt cfg S' r ct) ∧
    (∀ r : Nat, ∀ S S' : Nat → Nat, (∀ m, m < 2 * r + 4 → S m = S' m) →
      ∀ pt, rc6_encrypt cfg S r pt = rc6_encrypt cfg S' r pt) ∧
    (∀ r : Nat, ∀ S S' : Nat → Nat, (∀ m, m < 2 * r + 4 → S m = S' m) →
      ∀ ct, rc6_decrypt cfg S r ct = rc6_decrypt cfg S' r ct) :=
  ⟨fun w r b key S0 => rc5_setup_frame cfg w r b key S0,
   fun w r b key S0 => rc6_setup_frame cfg w r b key S0,
   fun r S S' h pt => rc5_encrypt_congr cfg r S S' h pt,
   fun r S S' h ct => rc5_decrypt_congr cfg r S S' h ct,
   fun r S S' h pt => rc6_encrypt_congr cfg r S S' h pt,
   fun r S S' h ct => rc6_decrypt_congr cfg r S S' h ct⟩

/-- Witness for C10 at the 8-bit configuration with r = 4: the caller word
just past each table is untouched by setup, and the four routines give the
same result on two tables that agree on the documented index ranges but
differ above them. -/
theorem table_access_bounds_witness :
    (2 * (4 : Int).toNat + 2 ≤ 10 ∧
      (rc5_setup params8 8 4 1 (fun _ => 6) (fun i => i + 50)).2 10 = 60) ∧
    (2 * (4 : Int).toNat + 4 ≤ 12 ∧
      (rc6_setup params8 8 4 1 (fun _ => 6) (fun i => i + 50)).2 12 = 62) ∧
    ((∀ m, m < 2 * 4 + 2 → (fun i : Nat => i + 1) m = (fun i => if i < 10 then i + 1 else 77) m) ∧
      rc5_encrypt params8 (fun i => i + 1) 4 (5, 9) =
        rc5_encrypt params8 (fun i => if i < 10 then i + 1 else 77) 4 (5, 9) ∧
      rc5_decrypt params8 (fun i => i + 1) 4 (5, 9) =
        rc5_decrypt params8 (fun i => if i < 10 then i + 1 else 77) 4 (5, 9)) ∧
    ((∀ m, m < 2 * 4 + 4 → (fun i : Nat => i + 1) m = (fun i => if i < 12 then i + 1 else 77) m) ∧
      rc6_encrypt params8 (fun i => i + 1) 4 ⟨5, 9, 13, 17⟩ =
        rc6_encrypt params8 (fun i => if i < 12 then i + 1 else 77) 4 ⟨5, 9, 13, 17⟩ ∧
      rc6_decrypt params8 (fun i => i + 1) 4 ⟨5, 9, 13, 17⟩ =
        rc6_decrypt params8 (fun i => if i < 12 then i + 1 else 77) 4 ⟨5, 9, 13, 17⟩) :=
  ⟨⟨by decide, (table_access_bounds params8).1 8 4 1 (fun _ => 6) (fun i => i + 50) 10 (by decide)⟩,
   ⟨by decide, (table_access_bounds params8).2.1 8 4 1 (fun _ => 6) (fun i => i + 50) 12 (by decide)⟩,
   ⟨by decide,
    (table_access_bounds params8).2.2.1 4 (fun i => i + 1)
      (fun i => if i < 10 then i + 1 else 77) (by decide) (5, 9),
    (table_access_bounds params8).2.2.2.1 4 (fun i => i + 1)
      (fun i => if i < 10 then i + 1 else 77) (by decide) (5, 9)⟩,
   ⟨by decide,
    (table_access_bounds params8).2.2.2.2.1 4 (fun i => i + 1)
      (fun i => if i < 12 then i + 1 else 77) (by decide) ⟨5, 9, 13, 17⟩,
    (table_access_bounds params8).2.2.2.2.2 4 (fun i => i + 1)
      (fun i => if i < 12 then i + 1 else 77) (by decide) ⟨5, 9, 13, 17⟩⟩⟩

end RC6
